import Mathlib

/-!
Shallow embedding of the multilevel-paging simulator
(pagetable.cpp, replacement.cpp, main.cpp) and proofs about it.

Machine integers are modelled as Nat with explicit reduction modulo
2^32 (or 2^16 for the age bitstrings) exactly where the C code relies
on unsigned wrap-around; `int` values are modelled as Int.
-/

namespace MLPaging

/-- 2^32, the modulus of the C type unsigned int. -/
def U32 : Nat := 4294967296

/-- Unsigned 32-bit subtraction with wrap-around, as C computes a - b. -/
def u32sub (a b : Nat) : Nat := ((a % U32) + U32 - (b % U32)) % U32

/-- C conversion (unsigned int)x of an int value x: reduction mod 2^32. -/
def u32ofInt (x : Int) : Nat := (x % (4294967296 : Int)).toNat

/-- struct Map from pagetable.h: a terminal mapping slot. -/
structure Map where
  frameNumber : Int
  valid : Bool
deriving Repr, DecidableEq

/-- The fill value of a freshly allocated leaf array (frameNumber -1, invalid). -/
def defaultMap : Map := { frameNumber := -1, valid := false }

/-- struct Level from pagetable.h.  `nextLevelArray` is the interior child
array (null when not yet allocated), `mapArray` the terminal mapping array;
both are lazily allocated exactly as in the C code. -/
inductive Level : Type where
  | mk (depth : Nat) (entryCount : Nat)
       (nextLevelArray : Option (List (Option Level)))
       (mapArray : Option (List Map)) : Level

def Level.depth : Level → Nat
  | .mk d _ _ _ => d

def Level.entryCount : Level → Nat
  | .mk _ e _ _ => e

def Level.nextLevelArray : Level → Option (List (Option Level))
  | .mk _ _ n _ => n

def Level.mapArray : Level → Option (List Map)
  | .mk _ _ _ m => m

/-- Rebuild a level with a new interior child array (assignment to
curr->nextLevelArray). -/
def Level.withNext (l : Level) (n : Option (List (Option Level))) : Level :=
  match l with
  | .mk d e _ m => .mk d e n m

/-- Rebuild a level with a new terminal mapping array (assignment to
curr->mapArray). -/
def Level.withMaps (l : Level) (m : Option (List Map)) : Level :=
  match l with
  | .mk d e n _ => .mk d e n m

/-- allocateLevel from pagetable.cpp: both arrays start null. -/
def allocateLevel (depth entryCount : Nat) : Level :=
  .mk depth entryCount none none

/-- struct PageTable from pagetable.h. -/
structure PageTable where
  levelCount : Nat
  levelBits : List Nat
  levelMask : List Nat
  levelShift : List Nat
  offsetBits : Nat
  offsetMask : Nat
  rootLevel : Level

/-- The mask/shift computation loop of createPageTable: for each level,
hiBits = accumulated + bits, shift = 32 - hiBits, and the mask is
((1u << bits) - 1u) << shift with the bits == 32 case special-cased,
exactly as in the source.  Returns the (mask, shift) pairs in level order. -/
def levelMetaLoop : List Nat → Nat → List (Nat × Nat)
  | [], _ => []
  | b :: rest, accumulated =>
    let hiBits := accumulated + b
    let shift := u32sub 32 hiBits
    let mask := if b = 32 then 4294967295 else (((1 <<< b) - 1) <<< shift) % U32
    (mask, shift) :: levelMetaLoop rest hiBits

/-- createPageTable from pagetable.cpp. -/
def createPageTable (levelBitsArray : List Nat) : PageTable :=
  let levelCount := levelBitsArray.length
  let sumBits := levelBitsArray.sum % U32
  let offsetBits := u32sub 32 sumBits
  let offsetMask := if offsetBits = 32 then 4294967295 else ((1 <<< offsetBits) - 1) % U32
  let meta := levelMetaLoop levelBitsArray 0
  { levelCount := levelCount
    levelBits := levelBitsArray
    levelMask := meta.map (·.1)
    levelShift := meta.map (·.2)
    offsetBits := offsetBits
    offsetMask := offsetMask
    rootLevel := allocateLevel 0 ((1 <<< levelBitsArray.headD 0) % U32) }

/-- extractVPNFromVirtualAddress from pagetable.cpp. -/
def extractVPNFromVirtualAddress (virtualAddress mask shift : Nat) : Nat :=
  (virtualAddress &&& mask) >>> shift

/-- The index extracted at level d of the walk (the loop body expression of
searchMappedPfn and insertMapForVpn2Pfn). -/
def levelIndex (pt : PageTable) (virtualAddress d : Nat) : Nat :=
  extractVPNFromVirtualAddress virtualAddress
    (pt.levelMask.getD d 0) (pt.levelShift.getD d 0)

/-- The loop of searchMappedPfn, one recursive step per level; `fuel` is the
number of levels still to walk (levelCount - d at each call). -/
def searchMappedPfnAux (pt : PageTable) (virtualAddress : Nat) :
    Nat → Nat → Level → Option Map
  | _, 0, _ => none
  | d, fuel+1, curr =>
    let idx := levelIndex pt virtualAddress d
    if d = pt.levelCount - 1 then
      match curr.mapArray with
      | none => none
      | some arr =>
        let m := arr.getD idx defaultMap
        if !m.valid || m.frameNumber < 0 then none else some m
    else
      match curr.nextLevelArray with
      | none => none
      | some children =>
        match children.getD idx none with
        | none => none
        | some next => searchMappedPfnAux pt virtualAddress (d+1) fuel next

/-- searchMappedPfn from pagetable.cpp. -/
def searchMappedPfn (pt : PageTable) (virtualAddress : Nat) : Option Map :=
  searchMappedPfnAux pt virtualAddress 0 pt.levelCount pt.rootLevel

/-- The loop of insertMapForVpn2Pfn; lazily allocates missing arrays and the
missing child level, then stores frameNumber with valid = (frameNumber >= 0). -/
def insertMapForVpn2PfnAux (pt : PageTable) (virtualAddress : Nat)
    (frameNumber : Int) : Nat → Nat → Level → Level
  | _, 0, curr => curr
  | d, fuel+1, curr =>
    let idx := levelIndex pt virtualAddress d
    if d = pt.levelCount - 1 then
      let arr := curr.mapArray.getD (List.replicate curr.entryCount defaultMap)
      curr.withMaps (some (arr.set idx
        { frameNumber := frameNumber, valid := decide (0 ≤ frameNumber) }))
    else
      let children := curr.nextLevelArray.getD (List.replicate curr.entryCount none)
      let child :=
        match children.getD idx none with
        | some c => c
        | none => allocateLevel (d+1) ((1 <<< pt.levelBits.getD (d+1) 0) % U32)
      let childNew := insertMapForVpn2PfnAux pt virtualAddress frameNumber (d+1) fuel child
      curr.withNext (some (children.set idx (some childNew)))

/-- insertMapForVpn2Pfn from pagetable.cpp. -/
def insertMapForVpn2Pfn (pt : PageTable) (virtualAddress : Nat)
    (frameNumber : Int) : PageTable :=
  { pt with rootLevel :=
      insertMapForVpn2PfnAux pt virtualAddress frameNumber 0 pt.levelCount pt.rootLevel }

/-- getFullVPN from pagetable.cpp. -/
def getFullVPN (pt : PageTable) (virtualAddress : Nat) : Nat :=
  if pt.offsetBits = 32 then 0 else virtualAddress >>> pt.offsetBits

/-- getOffsetFromVA from pagetable.cpp. -/
def getOffsetFromVA (pt : PageTable) (virtualAddress : Nat) : Nat :=
  virtualAddress &&& pt.offsetMask

/-- composePhysicalAddress from pagetable.cpp (unsigned 32-bit arithmetic). -/
def composePhysicalAddress (pt : PageTable) (frameNumber : Int) (offset : Nat) : Nat :=
  ((u32ofInt frameNumber <<< pt.offsetBits) % U32) ||| offset

/-- Sum of f over a list of child slots (the recursion loops of the two
entry-counting functions). -/
def sumOver (f : Option Level → Nat) : List (Option Level) → Nat
  | [] => 0
  | c :: rest => f c + sumOver f rest

/-- countEntriesRecursive from pagetable.cpp (the static helper there): one
unit per valid terminal mapping, one unit per non-null interior child slot. -/
def countEntriesRecursive (pt : PageTable) : Nat → Option Level → Nat
  | _, none => 0
  | 0, some _ => 0
  | fuel+1, some lvl =>
    if lvl.depth = pt.levelCount - 1 then
      match lvl.mapArray with
      | none => 0
      | some arr => arr.countP (fun m => m.valid && decide (0 ≤ m.frameNumber))
    else
      match lvl.nextLevelArray with
      | none => 0
      | some children =>
        children.countP (fun c => c.isSome) +
          sumOver (fun c => countEntriesRecursive pt fuel c) children

/-- countEntriesRecursiveLocal from main.cpp: at a leaf with an allocated
mapArray it adds the whole entryCount, regardless of validity. -/
def countEntriesRecursiveLocal (pt : PageTable) : Nat → Option Level → Nat
  | _, none => 0
  | 0, some _ => 0
  | fuel+1, some lvl =>
    if lvl.depth = pt.levelCount - 1 then
      match lvl.mapArray with
      | none => 0
      | some _ => lvl.entryCount
    else
      match lvl.nextLevelArray with
      | none => 0
      | some children =>
        children.countP (fun c => c.isSome) +
          sumOver (fun c => countEntriesRecursiveLocal pt fuel c) children

/-- The structural entry count the end-of-run summary reports
(main.cpp calls countEntriesRecursiveLocal on the root). -/
def summaryEntryCount (pt : PageTable) : Nat :=
  countEntriesRecursiveLocal pt pt.levelCount (some pt.rootLevel)

/-- struct LoadedPageInfo from replacement.h.  ageBits is a uint16_t value
(kept < 2^16 by all operations), lastAccessTime an unsigned int. -/
structure LoadedPageInfo where
  fullVPN : Nat
  frameNumber : Int
  ageBits : Nat
  lastAccessTime : Nat
  accessedThisInterval : Bool
deriving Repr, DecidableEq

def defaultLoaded : LoadedPageInfo :=
  { fullVPN := 0, frameNumber := -1, ageBits := 0,
    lastAccessTime := 0, accessedThisInterval := false }

/-- struct ReplacementState from replacement.h. -/
structure ReplacementState where
  maxFrames : Nat
  bitstringInterval : Nat
  accessesSinceAging : Nat
  currentTime : Nat
  nextFreeFrame : Nat
  loaded : List LoadedPageInfo
deriving Repr, DecidableEq

/-- initReplacementState from replacement.cpp. -/
def initReplacementState (maxFrames bitInterval : Nat) : ReplacementState :=
  { maxFrames := maxFrames, bitstringInterval := bitInterval,
    accessesSinceAging := 0, currentTime := 0, nextFreeFrame := 0, loaded := [] }

/-- The scan loop of findLoadedVPN, carrying the running index. -/
def findLoadedVPNAux (fullVPN : Nat) : List LoadedPageInfo → Nat → Int
  | [], _ => -1
  | e :: rest, i =>
    if e.fullVPN = fullVPN then Int.ofNat i else findLoadedVPNAux fullVPN rest (i+1)

/-- findLoadedVPN from replacement.cpp: index of the first loaded record with
this VPN, or -1. -/
def findLoadedVPN (rs : ReplacementState) (fullVPN : Nat) : Int :=
  findLoadedVPNAux fullVPN rs.loaded 0

/-- The per-record body of performAgingUpdate: shift the age bitstring right
by one, set the MSB if the record was accessed this interval, clear the flag. -/
def ageOneRecord (e : LoadedPageInfo) : LoadedPageInfo :=
  let shifted := e.ageBits >>> 1
  { e with ageBits := if e.accessedThisInterval then shifted ||| (1 <<< 15) else shifted,
           accessedThisInterval := false }

/-- performAgingUpdate from replacement.cpp. -/
def performAgingUpdate (rs : ReplacementState) : ReplacementState :=
  { rs with loaded := rs.loaded.map ageOneRecord }

/-- tickReplacementClock from replacement.cpp: advance the clock and the
accesses-since-aging counter (unsigned int arithmetic), then age and reset
the counter when the counter has reached the interval. -/
def tickReplacementClock (rs : ReplacementState) : ReplacementState :=
  let rsA := { rs with currentTime := (rs.currentTime + 1) % U32,
                       accessesSinceAging := (rs.accessesSinceAging + 1) % U32 }
  if rsA.bitstringInterval ≤ rsA.accessesSinceAging then
    { performAgingUpdate rsA with accessesSinceAging := 0 }
  else rsA

/-- The scan loop of noteFrameAccess: update the first record matching both
VPN and frame number, then return (leave the rest untouched). -/
def noteFrameAccessList (t fullVPN : Nat) (frameNumber : Int) :
    List LoadedPageInfo → List LoadedPageInfo
  | [] => []
  | e :: rest =>
    if e.fullVPN = fullVPN ∧ e.frameNumber = frameNumber then
      { e with lastAccessTime := t, accessedThisInterval := true } :: rest
    else e :: noteFrameAccessList t fullVPN frameNumber rest

/-- noteFrameAccess from replacement.cpp. -/
def noteFrameAccess (rs : ReplacementState) (fullVPN : Nat)
    (frameNumber : Int) : ReplacementState :=
  { rs with loaded := noteFrameAccessList rs.currentTime fullVPN frameNumber rs.loaded }

/-- The scan loop of chooseVictimIndex with its running best key; the initial
best values are the sentinels numeric_limits max (65535, 4294967295). -/
def chooseVictimAux : List LoadedPageInfo → Nat → Nat → Nat → Int → Int
  | [], _, _, _, bestIdx => bestIdx
  | e :: rest, i, bestAge, bestLast, bestIdx =>
    if e.ageBits < bestAge ∨ (e.ageBits = bestAge ∧ e.lastAccessTime < bestLast) then
      chooseVictimAux rest (i+1) e.ageBits e.lastAccessTime (Int.ofNat i)
    else
      chooseVictimAux rest (i+1) bestAge bestLast bestIdx

/-- chooseVictimIndex from replacement.cpp. -/
def chooseVictimIndex (rs : ReplacementState) : Int :=
  if rs.loaded.isEmpty then -1
  else chooseVictimAux rs.loaded 0 65535 4294967295 (-1)

/-- The outputs of ensureResidentPage: the returned frame, the out-parameters
didFault/didEvict/evictedVPN/evictedAgeBits, and the mutated state. -/
structure EnsureResult where
  pfn : Int
  didFault : Bool
  didEvict : Bool
  evictedVPN : Nat
  evictedAgeBits : Nat
  rs : ReplacementState
  pt : PageTable

/-- ensureResidentPage from replacement.cpp.  Returns none exactly where the
C code indexes rs.loaded with the -1 produced by chooseVictimIndex, which is
out of bounds (undefined behavior); every other path is total. -/
def ensureResidentPage (pt : PageTable) (rs : ReplacementState)
    (virtualAddress fullVPN : Nat) : Option EnsureResult :=
  let idx := findLoadedVPN rs fullVPN
  if 0 ≤ idx then
    some { pfn := (rs.loaded.getD idx.toNat defaultLoaded).frameNumber,
           didFault := false, didEvict := false, evictedVPN := 0,
           evictedAgeBits := 0, rs := rs, pt := pt }
  else if rs.loaded.length < rs.maxFrames then
    let newPFN : Int := Int.ofNat rs.nextFreeFrame
    let rsA := { rs with nextFreeFrame := (rs.nextFreeFrame + 1) % U32 }
    let ptA := insertMapForVpn2Pfn pt virtualAddress newPFN
    let info : LoadedPageInfo :=
      { fullVPN := fullVPN, frameNumber := newPFN, ageBits := 1 <<< 15,
        lastAccessTime := rs.currentTime, accessedThisInterval := true }
    some { pfn := newPFN, didFault := true, didEvict := false, evictedVPN := 0,
           evictedAgeBits := 0, rs := { rsA with loaded := rsA.loaded ++ [info] },
           pt := ptA }
  else
    let victimIdx := chooseVictimIndex rs
    if victimIdx < 0 then none
    else
      let i := victimIdx.toNat
      let victim := rs.loaded.getD i defaultLoaded
      let evictedVPN := victim.fullVPN
      let evictedAgeBits := victim.ageBits
      let reusedPFN := victim.frameNumber
      let victimVA := (evictedVPN <<< pt.offsetBits) % U32
      let ptA := insertMapForVpn2Pfn pt victimVA (-1)
      let newRec : LoadedPageInfo :=
        { fullVPN := fullVPN, frameNumber := reusedPFN, ageBits := 1 <<< 15,
          lastAccessTime := rs.currentTime, accessedThisInterval := true }
      let rsA := { rs with loaded := rs.loaded.set i newRec }
      let ptB := insertMapForVpn2Pfn ptA virtualAddress reusedPFN
      some { pfn := reusedPFN, didFault := true, didEvict := true,
             evictedVPN := evictedVPN, evictedAgeBits := evictedAgeBits,
             rs := rsA, pt := ptB }

/-- struct Stats from main.cpp (unsigned counters). -/
structure Stats where
  addressesProcessed : Nat
  hits : Nat
  misses : Nat
  evictions : Nat
deriving Repr, DecidableEq

def initStats : Stats :=
  { addressesProcessed := 0, hits := 0, misses := 0, evictions := 0 }

/-- The whole mutable state of one simulation run. -/
structure SimState where
  pt : PageTable
  rs : ReplacementState
  stats : Stats

/-- The body of the main processing loop in main.cpp for one trace address:
tick the clock, look the address up, on a hit count it, on a miss call
ensureResidentPage, then note the access in the replacement state. -/
def processAddress (s : SimState) (va : Nat) : Option SimState :=
  let statsA := { s.stats with
    addressesProcessed := (s.stats.addressesProcessed + 1) % U32 }
  let rsA := tickReplacementClock s.rs
  let fullVPN := getFullVPN s.pt va
  match searchMappedPfn s.pt va with
  | some m =>
    let rsB := noteFrameAccess rsA fullVPN m.frameNumber
    some { pt := s.pt, rs := rsB,
           stats := { statsA with hits := (statsA.hits + 1) % U32 } }
  | none =>
    match ensureResidentPage s.pt rsA va fullVPN with
    | none => none
    | some r =>
      let rsB := noteFrameAccess r.rs fullVPN r.pfn
      some { pt := r.pt, rs := rsB,
             stats := { statsA with
               misses := (statsA.misses + 1) % U32,
               evictions := (statsA.evictions + (if r.didEvict then 1 else 0)) % U32 } }

/-- The initial simulation state main.cpp builds after validating the
configuration. -/
def initSimState (levelBitsArray : List Nat) (maxFrames bitInterval : Nat) : SimState :=
  { pt := createPageTable levelBitsArray,
    rs := initReplacementState maxFrames bitInterval,
    stats := initStats }

/-- The main loop over the trace; none propagates the undefined victim
access of ensureResidentPage. -/
def runTrace (s : SimState) : List Nat → Option SimState
  | [] => some s
  | va :: rest =>
    match processAddress s va with
    | none => none
    | some sA => runTrace sA rest

/-- The level-bits collection loop of main.cpp: each argument is converted
with (unsigned int)atoi and rejected when < 1; the sum accumulates with
unsigned wrap-around.  Returns the accumulated sum when all pass. -/
def collectLevelBits : List Int → Nat → Option Nat
  | [], sumBits => some sumBits
  | x :: rest, sumBits =>
    let bits := u32ofInt x
    if bits < 1 then none
    else collectLevelBits rest ((sumBits + bits) % U32)

/-- The configuration validation main.cpp performs before building any
simulation state: -f and -b values are (unsigned int)atoi results rejected
when < 1, level bits are collected by collectLevelBits (at least one is
required), and the run aborts when the accumulated bit sum exceeds 28. -/
def validateConfig (maxFramesArg bitIntervalArg : Int) (levelBitArgs : List Int) : Bool :=
  decide (1 ≤ u32ofInt maxFramesArg) &&
  decide (1 ≤ u32ofInt bitIntervalArg) &&
  !levelBitArgs.isEmpty &&
  (match collectLevelBits levelBitArgs 0 with
   | none => false
   | some sumBits => decide (sumBits ≤ 28))

/-- The acceptance condition claimed by the spec, in the spec's words: every
level bit-width positive, their sum at most the 32-bit address width, and a
positive frame budget and aging interval. -/
def specClaimedAccept (maxFramesArg bitIntervalArg : Int) (levelBitArgs : List Int) : Bool :=
  decide (1 ≤ maxFramesArg) &&
  decide (1 ≤ bitIntervalArg) &&
  !levelBitArgs.isEmpty &&
  levelBitArgs.all (fun b => decide (1 ≤ b)) &&
  decide ((levelBitArgs.map Int.toNat).sum ≤ 32)

/-! ### Claim C2: configuration validation -/

/-- The unsigned accumulated sum of the level-bit arguments, as the
collection loop computes it. -/
def u32BitSum (levelBitArgs : List Int) : Nat :=
  levelBitArgs.foldl (fun s x => (s + u32ofInt x) % U32) 0

theorem collectLevelBits_eq (levelBitArgs : List Int) :
    ∀ s, collectLevelBits levelBitArgs s =
      if ∀ x ∈ levelBitArgs, 1 ≤ u32ofInt x then
        some (levelBitArgs.foldl (fun s x => (s + u32ofInt x) % U32) s)
      else none := by
  induction levelBitArgs with
  | nil => intro s; simp [collectLevelBits]
  | cons x rest ih =>
    intro s
    simp only [collectLevelBits, List.foldl_cons]
    rcases Nat.lt_or_ge (u32ofInt x) 1 with h1 | h1
    · rw [if_pos h1, if_neg]
      intro hc
      exact absurd (hc x (List.mem_cons_self x rest)) (Nat.not_le.mpr h1)
    · rw [if_neg (Nat.not_lt.mpr h1), ih]
      by_cases hall : ∀ y ∈ rest, 1 ≤ u32ofInt y
      · rw [if_pos hall, if_pos]
        intro y hy
        rcases List.mem_cons.mp hy with hx | hy2
        · rw [hx]; exact h1
        · exact hall y hy2
      · rw [if_neg hall, if_neg]
        intro hc
        exact hall fun y hy => hc y (List.mem_cons_of_mem x hy)

/-- C2 counterexample: the configuration with a single 32-bit level, frame
budget 4 and interval 10 has positive bit-widths summing to at most the
32-bit address width and positive budget/interval, so the claim says it is
accepted, yet the program rejects it (its hard limit is a bit sum of 28). -/
theorem claim_C2_counterexample :
    specClaimedAccept 4 10 [32] = true ∧ validateConfig 4 10 [32] = false := by
  constructor <;> rfl

/-- C2 (amended): validation accepts a configuration exactly when the
unsigned conversions of the frame budget and aging interval are at least 1,
at least one level bit-width is given, every level bit-width converts to an
unsigned value of at least 1 (so a zero is rejected but a negative argument
is converted to a large unsigned value and passes), and the unsigned
accumulated sum of the level bit-widths is at most 28 (not 32). -/
theorem claim_C2_amended (maxFramesArg bitIntervalArg : Int) (levelBitArgs : List Int) :
    validateConfig maxFramesArg bitIntervalArg levelBitArgs = true ↔
      (1 ≤ u32ofInt maxFramesArg ∧ 1 ≤ u32ofInt bitIntervalArg ∧
       levelBitArgs ≠ [] ∧ (∀ x ∈ levelBitArgs, 1 ≤ u32ofInt x) ∧
       u32BitSum levelBitArgs ≤ 28) := by
  unfold validateConfig u32BitSum
  rw [collectLevelBits_eq]
  cases levelBitArgs with
  | nil => simp
  | cons x rest =>
    by_cases hall : ∀ y ∈ x :: rest, 1 ≤ u32ofInt y
    · rw [if_pos hall]
      simp only [Bool.and_eq_true, decide_eq_true_eq, List.isEmpty_cons,
        Bool.not_false, List.foldl_cons, Nat.zero_add]
      constructor
      · rintro ⟨⟨⟨hf, hb⟩, -⟩, hs⟩
        exact ⟨hf, hb, List.cons_ne_nil x rest, hall, hs⟩
      · rintro ⟨hf, hb, -, -, hs⟩
        exact ⟨⟨⟨hf, hb⟩, trivial⟩, hs⟩
    · rw [if_neg hall]
      simp only [Bool.and_eq_true, decide_eq_true_eq]
      constructor
      · rintro ⟨-, h⟩
        exact absurd h (by simp)
      · rintro ⟨-, -, -, h, -⟩
        exact absurd h hall

/-! ### Claim C6: victim selection -/

/-- A replacement state with a single resident record whose age bitstring
and last-access timestamp both equal the sentinel initial values of the
victim scan (65535 and 4294967295). -/
def c6State : ReplacementState :=
  { maxFrames := 1, bitstringInterval := 10, accessesSinceAging := 0,
    currentTime := 5, nextFreeFrame := 1,
    loaded := [{ fullVPN := 0, frameNumber := 0, ageBits := 65535,
                 lastAccessTime := 4294967295, accessedThisInterval := false }] }

/-- C6: the victim scan initializes its best keys to the numeric-limit
sentinels and only replaces them on a strict lexicographic improvement, so a
resident record whose age bitstring is 65535 and whose last-access timestamp
is 4294967295 is never selected: on a state holding only such a record the
scan returns -1 instead of index 0, and ensureResidentPage then indexes
rs.loaded with -1 (out of bounds, modelled here as none). -/
theorem claim_C6_bug :
    c6State.loaded.length = 1 ∧
    chooseVictimIndex c6State = -1 ∧
    ensureResidentPage (createPageTable [1, 2]) c6State 536870912 1 = none := by
  refine ⟨rfl, rfl, rfl⟩

/-! ### Claim C7: aging decay -/

/-- C7: during a clock tick the aging decay fires exactly when the counter
reaches the configured interval; it right-shifts every resident record's age
bitstring by one, sets the most-significant bit iff the record was accessed
during the interval just ended, clears the per-record accessed flag, and
resets the counter to zero; when it does not fire the records are untouched
and the counter just advances.  A record untouched during the interval ends
with its prior value shifted right once and the MSB clear. -/
theorem claim_C7_aging (rs : ReplacementState)
    (hcnt : rs.accessesSinceAging < rs.bitstringInterval)
    (hiv : rs.bitstringInterval < U32) :
    (tickReplacementClock rs).currentTime = (rs.currentTime + 1) % U32 ∧
    (rs.accessesSinceAging + 1 = rs.bitstringInterval →
      (tickReplacementClock rs).loaded = rs.loaded.map ageOneRecord ∧
      (tickReplacementClock rs).accessesSinceAging = 0) ∧
    (rs.accessesSinceAging + 1 ≠ rs.bitstringInterval →
      (tickReplacementClock rs).loaded = rs.loaded ∧
      (tickReplacementClock rs).accessesSinceAging = rs.accessesSinceAging + 1) ∧
    (∀ e : LoadedPageInfo, e.ageBits < 65536 →
      (ageOneRecord e).accessedThisInterval = false ∧
      (ageOneRecord e).ageBits =
        (if e.accessedThisInterval then (e.ageBits >>> 1) ||| (1 <<< 15)
         else e.ageBits >>> 1) ∧
      Nat.testBit (ageOneRecord e).ageBits 15 = e.accessedThisInterval ∧
      (e.accessedThisInterval = false →
        (ageOneRecord e).ageBits = e.ageBits >>> 1 ∧
        (ageOneRecord e).ageBits < 32768)) := by
  have hc1 : rs.accessesSinceAging + 1 < U32 := Nat.lt_of_le_of_lt hcnt hiv
  have hmod : (rs.accessesSinceAging + 1) % U32 = rs.accessesSinceAging + 1 :=
    Nat.mod_eq_of_lt hc1
  refine ⟨?_, ?_, ?_, ?_⟩
  · unfold tickReplacementClock performAgingUpdate
    by_cases h : rs.bitstringInterval ≤ (rs.accessesSinceAging + 1) % U32 <;>
      simp [h]
  · intro hfire
    have hge : rs.bitstringInterval ≤ rs.accessesSinceAging + 1 := hfire.ge
    unfold tickReplacementClock performAgingUpdate
    simp [hmod, hge]
  · intro hnot
    have hlt : ¬ rs.bitstringInterval ≤ rs.accessesSinceAging + 1 := by omega
    unfold tickReplacementClock performAgingUpdate
    simp [hmod, hlt]
  · intro e hlt
    have hsh : e.ageBits >>> 1 < 32768 := by
      rw [Nat.shiftRight_eq_div_pow]
      omega
    refine ⟨rfl, ?_, ?_, fun hacc => ?_⟩
    · unfold ageOneRecord
      by_cases h : e.accessedThisInterval <;> simp [h]
    · unfold ageOneRecord
      have h15 : Nat.testBit (1 <<< 15) 15 = true := by decide
      by_cases h : e.accessedThisInterval <;> simp only [h, if_true, if_false]
      · simp only [Nat.testBit_or]
        rw [show ((1 : Nat) <<< 15) = 32768 from rfl,
          show Nat.testBit 32768 15 = true from by decide, Bool.or_true]
      · simp only [Bool.false_eq]
        exact Nat.testBit_lt_two_pow hsh
    · unfold ageOneRecord
      simp only [hacc, if_false]
      exact ⟨rfl, hsh⟩

/-- Witness for C7 at a concrete state: one record accessed this interval,
one not, counter one short of the interval so the tick fires. -/
theorem claim_C7_aging_witness :
    (tickReplacementClock
        { maxFrames := 4, bitstringInterval := 2, accessesSinceAging := 1,
          currentTime := 7, nextFreeFrame := 2,
          loaded := [{ fullVPN := 0, frameNumber := 0, ageBits := 32768,
                       lastAccessTime := 6, accessedThisInterval := true },
                     { fullVPN := 1, frameNumber := 1, ageBits := 16384,
                       lastAccessTime := 5, accessedThisInterval := false }] }).loaded =
      [{ fullVPN := 0, frameNumber := 0, ageBits := 49152,
         lastAccessTime := 6, accessedThisInterval := false },
       { fullVPN := 1, frameNumber := 1, ageBits := 8192,
         lastAccessTime := 5, accessedThisInterval := false }] := by
  have h := claim_C7_aging
    { maxFrames := 4, bitstringInterval := 2, accessesSinceAging := 1,
      currentTime := 7, nextFreeFrame := 2,
      loaded := [{ fullVPN := 0, frameNumber := 0, ageBits := 32768,
                   lastAccessTime := 6, accessedThisInterval := true },
                 { fullVPN := 1, frameNumber := 1, ageBits := 16384,
                   lastAccessTime := 5, accessedThisInterval := false }] }
    (by decide) (by decide)
  rw [(h.2.1 rfl).1]
  rfl

/-! ### Claim C1: the entry count reported by the summary -/

/-- Census helper following the spec wording: one unit per non-empty
interior child slot at every interior level. -/
def interiorUnitCount (pt : PageTable) : Nat → Option Level → Nat
  | _, none => 0
  | 0, some _ => 0
  | fuel+1, some lvl =>
    if lvl.depth = pt.levelCount - 1 then 0
    else
      match lvl.nextLevelArray with
      | none => 0
      | some children =>
        children.countP (fun c => c.isSome) +
          sumOver (fun c => interiorUnitCount pt fuel c) children

/-- Census helper following the spec wording: one unit per valid terminal
mapping. -/
def validTerminalCount (pt : PageTable) : Nat → Option Level → Nat
  | _, none => 0
  | 0, some _ => 0
  | fuel+1, some lvl =>
    if lvl.depth = pt.levelCount - 1 then
      match lvl.mapArray with
      | none => 0
      | some arr => arr.countP (fun m => m.valid && decide (0 ≤ m.frameNumber))
    else
      match lvl.nextLevelArray with
      | none => 0
      | some children => sumOver (fun c => validTerminalCount pt fuel c) children

/-- The full capacity of every allocated terminal mapping array, summed over
the trie. -/
def allocatedLeafCapacity (pt : PageTable) : Nat → Option Level → Nat
  | _, none => 0
  | 0, some _ => 0
  | fuel+1, some lvl =>
    if lvl.depth = pt.levelCount - 1 then
      match lvl.mapArray with
      | none => 0
      | some _ => lvl.entryCount
    else
      match lvl.nextLevelArray with
      | none => 0
      | some children => sumOver (fun c => allocatedLeafCapacity pt fuel c) children

theorem sumOver_congr (l : List (Option Level)) (f g : Option Level → Nat)
    (h : ∀ c ∈ l, f c = g c) : sumOver f l = sumOver g l := by
  induction l with
  | nil => rfl
  | cons c rest ih =>
    simp only [sumOver]
    rw [h c (List.mem_cons_self c rest),
      ih fun x hx => h x (List.mem_cons_of_mem c hx)]

theorem sumOver_add_distrib (l : List (Option Level)) (f g : Option Level → Nat) :
    sumOver (fun c => f c + g c) l = sumOver f l + sumOver g l := by
  induction l with
  | nil => rfl
  | cons c rest ih =>
    simp only [sumOver, ih]
    omega

/-- The count the summary reports decomposes into interior units plus the
full capacity of every allocated leaf array. -/
theorem countLocal_decomp (pt : PageTable) :
    ∀ (fuel : Nat) (l : Option Level),
      countEntriesRecursiveLocal pt fuel l =
        interiorUnitCount pt fuel l + allocatedLeafCapacity pt fuel l := by
  intro fuel
  induction fuel with
  | zero => intro l; cases l <;> rfl
  | succ fuel ih =>
    intro l
    cases l with
    | none => rfl
    | some lvl =>
      simp only [countEntriesRecursiveLocal, interiorUnitCount, allocatedLeafCapacity]
      by_cases hleaf : lvl.depth = pt.levelCount - 1
      · rw [if_pos hleaf, if_pos hleaf, if_pos hleaf]
        cases hm : lvl.mapArray <;> simp
      · rw [if_neg hleaf, if_neg hleaf, if_neg hleaf]
        cases hn : lvl.nextLevelArray with
        | none => rfl
        | some children =>
          simp only []
          rw [sumOver_congr children (fun c => countEntriesRecursiveLocal pt fuel c)
                (fun c => interiorUnitCount pt fuel c + allocatedLeafCapacity pt fuel c)
                (fun c _ => ih c),
              sumOver_add_distrib children (fun c => interiorUnitCount pt fuel c)
                (fun c => allocatedLeafCapacity pt fuel c)]
          omega

/-- The end state of a run over configuration [1, 2] (interval 10, ample
frames) with two addresses that share every level index except the last:
level 0 index is bit 31 (both 0), level 1 index is bits 30..29 (0 and 1). -/
def c1Run : SimState :=
  (runTrace (initSimState [1, 2] 100 10) [0, 536870912]).getD
    (initSimState [1, 2] 100 10)

/-- C1 counterexample: after the two-mapping run, the summary reports 5
(one shared interior unit plus the whole allocated leaf capacity 4 = 2^2),
while the census the claim describes gives 1 interior unit plus 2 valid
terminal mappings = 3. -/
theorem claim_C1_counterexample :
    summaryEntryCount c1Run.pt = 5 ∧
    interiorUnitCount c1Run.pt c1Run.pt.levelCount (some c1Run.pt.rootLevel) = 1 ∧
    validTerminalCount c1Run.pt c1Run.pt.levelCount (some c1Run.pt.rootLevel) = 2 ∧
    summaryEntryCount c1Run.pt ≠
      interiorUnitCount c1Run.pt c1Run.pt.levelCount (some c1Run.pt.rootLevel) +
        validTerminalCount c1Run.pt c1Run.pt.levelCount (some c1Run.pt.rootLevel) := by
  refine ⟨rfl, rfl, rfl, ?_⟩
  decide

/-- C1 (amended): the structural entry count reported in the end-of-run
summary equals one unit per non-empty interior child slot at every interior
level plus, for every leaf whose mapping array has been allocated, the full
capacity of that array, regardless of how many mappings are valid; in the
two-mapping scenario it is 1 shared interior unit plus the whole leaf
capacity 4, not 1 + 2. -/
theorem claim_C1_amended :
    (∀ (pt : PageTable) (fuel : Nat) (l : Option Level),
      countEntriesRecursiveLocal pt fuel l =
        interiorUnitCount pt fuel l + allocatedLeafCapacity pt fuel l) ∧
    interiorUnitCount c1Run.pt c1Run.pt.levelCount (some c1Run.pt.rootLevel) = 1 ∧
    allocatedLeafCapacity c1Run.pt c1Run.pt.levelCount (some c1Run.pt.rootLevel) = 4 ∧
    summaryEntryCount c1Run.pt = 1 + 4 :=
  ⟨countLocal_decomp, rfl, rfl, rfl⟩

/-! ### Claim C8: the eviction path of the fault handler -/

/-- C8: on a miss with the frame budget exhausted and a victim found,
ensureResidentPage invalidates the victim's mapping at the address rebuilt
as its VPN shifted left by the offset width, reuses the victim's frame,
overwrites the victim record in place (same slot index) with the new VPN,
age bitstring 0x8000 and the current timestamp, installs the new mapping,
and reports the evicted VPN and the pre-reset age bitstring. -/
theorem claim_C8_eviction (pt : PageTable) (rs : ReplacementState) (va vpn : Nat)
    (hmiss : findLoadedVPN rs vpn < 0)
    (hfull : ¬ rs.loaded.length < rs.maxFrames)
    (hvic : 0 ≤ chooseVictimIndex rs) :
    ensureResidentPage pt rs va vpn =
      some { pfn := (rs.loaded.getD (chooseVictimIndex rs).toNat defaultLoaded).frameNumber,
             didFault := true, didEvict := true,
             evictedVPN := (rs.loaded.getD (chooseVictimIndex rs).toNat defaultLoaded).fullVPN,
             evictedAgeBits := (rs.loaded.getD (chooseVictimIndex rs).toNat defaultLoaded).ageBits,
             rs := { rs with
                       loaded := rs.loaded.set (chooseVictimIndex rs).toNat
                         ({ fullVPN := vpn,
                            frameNumber := (rs.loaded.getD (chooseVictimIndex rs).toNat defaultLoaded).frameNumber,
                            ageBits := 1 <<< 15, lastAccessTime := rs.currentTime,
                            accessedThisInterval := true }) },
             pt := insertMapForVpn2Pfn
                     (insertMapForVpn2Pfn pt
                       (((rs.loaded.getD (chooseVictimIndex rs).toNat defaultLoaded).fullVPN
                           <<< pt.offsetBits) % U32)
                       (-1))
                     va
                     (rs.loaded.getD (chooseVictimIndex rs).toNat defaultLoaded).frameNumber } := by
  unfold ensureResidentPage
  rw [if_neg (Int.not_le.mpr hmiss), if_neg hfull, if_neg (Int.not_lt.mpr hvic)]

/-- A one-record full state for the C8 witness. -/
def c8State : ReplacementState :=
  { maxFrames := 1, bitstringInterval := 10, accessesSinceAging := 0,
    currentTime := 3, nextFreeFrame := 1,
    loaded := [{ fullVPN := 0, frameNumber := 0, ageBits := 16384,
                 lastAccessTime := 1, accessedThisInterval := false }] }

/-- Witness for C8 on the concrete full state: the resident VPN 0 is evicted
in favor of VPN 1 (virtual address 0x20000000 under configuration [1, 2]). -/
theorem claim_C8_eviction_witness :
    ensureResidentPage (createPageTable [1, 2]) c8State 536870912 1 =
      some { pfn := (c8State.loaded.getD (chooseVictimIndex c8State).toNat defaultLoaded).frameNumber,
             didFault := true, didEvict := true,
             evictedVPN := (c8State.loaded.getD (chooseVictimIndex c8State).toNat defaultLoaded).fullVPN,
             evictedAgeBits := (c8State.loaded.getD (chooseVictimIndex c8State).toNat defaultLoaded).ageBits,
             rs := { c8State with
                       loaded := c8State.loaded.set (chooseVictimIndex c8State).toNat
                         ({ fullVPN := 1,
                            frameNumber := (c8State.loaded.getD (chooseVictimIndex c8State).toNat defaultLoaded).frameNumber,
                            ageBits := 1 <<< 15, lastAccessTime := c8State.currentTime,
                            accessedThisInterval := true }) },
             pt := insertMapForVpn2Pfn
                     (insertMapForVpn2Pfn (createPageTable [1, 2])
                       (((c8State.loaded.getD (chooseVictimIndex c8State).toNat defaultLoaded).fullVPN
                           <<< (createPageTable [1, 2]).offsetBits) % U32)
                       (-1))
                     536870912
                     (c8State.loaded.getD (chooseVictimIndex c8State).toNat defaultLoaded).frameNumber } :=
  claim_C8_eviction (createPageTable [1, 2]) c8State 536870912 1
    (by decide) (by decide) (by decide)

/-! ### Claim C9: translation is side-effect-free -/

/-- The state-passing reading of the searchMappedPfn loop: each visited node
is returned (and stored back into its parent slot), so any write the walk
performed would be visible in the returned level. -/
def searchMappedPfnStAux (pt : PageTable) (virtualAddress : Nat) :
    Nat → Nat → Level → (Option Map × Level)
  | _, 0, curr => (none, curr)
  | d, fuel+1, curr =>
    let idx := levelIndex pt virtualAddress d
    if d = pt.levelCount - 1 then
      match curr.mapArray with
      | none => (none, curr)
      | some arr =>
        let m := arr.getD idx defaultMap
        (if !m.valid || m.frameNumber < 0 then none else some m, curr)
    else
      match curr.nextLevelArray with
      | none => (none, curr)
      | some children =>
        match children.getD idx none with
        | none => (none, curr)
        | some next =>
          let r := searchMappedPfnStAux pt virtualAddress (d+1) fuel next
          (r.1, curr.withNext (some (children.set idx (some r.2))))

/-- State-passing searchMappedPfn at the root. -/
def searchMappedPfnSt (pt : PageTable) (virtualAddress : Nat) :
    Option Map × PageTable :=
  let r := searchMappedPfnStAux pt virtualAddress 0 pt.levelCount pt.rootLevel
  (r.1, { pt with rootLevel := r.2 })

theorem list_set_getD_self {α : Type} (l : List α) :
    ∀ (i : Nat) (d : α), l.set i (l.getD i d) = l := by
  induction l with
  | nil => intro i d; rfl
  | cons x rest ih =>
    intro i d
    cases i with
    | zero => rfl
    | succ j =>
      show x :: rest.set j (rest.getD j d) = x :: rest
      rw [ih j d]

theorem searchStAux_eq (pt : PageTable) (va : Nat) :
    ∀ (fuel d : Nat) (curr : Level),
      searchMappedPfnStAux pt va d fuel curr =
        (searchMappedPfnAux pt va d fuel curr, curr) := by
  intro fuel
  induction fuel with
  | zero => intro d curr; rfl
  | succ fuel ih =>
    intro d curr
    simp only [searchMappedPfnStAux, searchMappedPfnAux]
    by_cases hleaf : d = pt.levelCount - 1
    · rw [if_pos hleaf, if_pos hleaf]
      cases curr.mapArray <;> rfl
    · rw [if_neg hleaf, if_neg hleaf]
      cases hn : curr.nextLevelArray with
      | none => rfl
      | some children =>
        simp only []
        cases hc : children.getD (levelIndex pt va d) none with
        | none => rfl
        | some next =>
          simp only []
          rw [ih]
          simp only []
          rw [← hc, list_set_getD_self]
          cases curr with
          | mk cd ce cn cm =>
            simp only [Level.nextLevelArray] at hn
            simp only [Level.withNext, hn]

theorem search_valid_or_none (pt : PageTable) (va : Nat) :
    ∀ (fuel d : Nat) (curr : Level) (m : Map),
      searchMappedPfnAux pt va d fuel curr = some m →
      m.valid = true ∧ 0 ≤ m.frameNumber := by
  intro fuel
  induction fuel with
  | zero => intro d curr m h; exact absurd h (by simp [searchMappedPfnAux])
  | succ fuel ih =>
    intro d curr m h
    simp only [searchMappedPfnAux] at h
    by_cases hleaf : d = pt.levelCount - 1
    · rw [if_pos hleaf] at h
      cases hm : curr.mapArray with
      | none => rw [hm] at h; exact absurd h (by simp)
      | some arr =>
        rw [hm] at h
        simp only [] at h
        by_cases hbad : (!(arr.getD (levelIndex pt va d) defaultMap).valid ||
            decide ((arr.getD (levelIndex pt va d) defaultMap).frameNumber < 0)) = true
        · rw [if_pos hbad] at h
          exact absurd h (by simp)
        · rw [if_neg hbad] at h
          cases h
          simp only [Bool.or_eq_true, Bool.not_eq_true', decide_eq_true_eq] at hbad
          push_neg at hbad
          exact ⟨Bool.ne_false_iff.mp hbad.1, hbad.2⟩
    · rw [if_neg hleaf] at h
      cases hn : curr.nextLevelArray with
      | none => rw [hn] at h; exact absurd h (by simp)
      | some children =>
        rw [hn] at h
        simp only [] at h
        cases hc : children.getD (levelIndex pt va d) none with
        | none => rw [hc] at h; exact absurd h (by simp)
        | some next =>
          rw [hc] at h
          simp only [] at h
          exact ih (d+1) next m h

/-- C9: translation is side-effect-free and total: the state-passing reading
of the lookup walk returns the trie unchanged (it allocates no interior node
and no terminal array, even when it stops at an empty child slot or an
invalid terminal slot), and the value it produces is either a valid terminal
mapping with a nonnegative frame or not-found. -/
theorem claim_C9_lookup_pure (pt : PageTable) (va : Nat) :
    searchMappedPfnSt pt va = (searchMappedPfn pt va, pt) ∧
    (∀ m : Map, searchMappedPfn pt va = some m →
      m.valid = true ∧ 0 ≤ m.frameNumber) := by
  constructor
  · unfold searchMappedPfnSt searchMappedPfn
    rw [searchStAux_eq]
  · intro m h
    exact search_valid_or_none pt va pt.levelCount 0 pt.rootLevel m h

/-! ### Claim C3: the derived masks partition the address -/

/-- Sum of the first k level bit-widths. -/
def sumTake (bits : List Nat) (k : Nat) : Nat := (bits.take k).sum

theorem u32sub_eq (x : Nat) (h : x ≤ 32) : u32sub 32 x = 32 - x := by
  unfold u32sub U32
  omega

theorem sumTake_succ (bits : List Nat) :
    ∀ k, sumTake bits (k+1) = sumTake bits k + bits.getD k 0 := by
  induction bits with
  | nil => intro k; simp [sumTake]
  | cons b rest ih =>
    intro k
    cases k with
    | zero => simp [sumTake]
    | succ j =>
      simp only [sumTake, List.take_succ_cons, List.sum_cons, List.getD_cons_succ]
      have h := ih j
      unfold sumTake at h
      omega

theorem sumTake_le_sum (bits : List Nat) (k : Nat) : sumTake bits k ≤ bits.sum := by
  unfold sumTake
  conv_rhs => rw [← List.take_append_drop k bits]
  rw [List.sum_append]
  omega

theorem sumTake_mono (bits : List Nat) : ∀ j k, j ≤ k → sumTake bits j ≤ sumTake bits k := by
  intro j k
  induction k with
  | zero =>
    intro h
    have hj : j = 0 := Nat.le_zero.mp h
    rw [hj]
  | succ m ih =>
    intro h
    rcases Nat.eq_or_lt_of_le h with he | hl
    · rw [he]
    · have h2 := ih (Nat.lt_succ_iff.mp hl)
      rw [sumTake_succ]
      omega

theorem getD_map_fst {β : Type} (f : β → Nat) (b0 : β) (l : List β) :
    ∀ d, d < l.length → (l.map f).getD d 0 = f (l.getD d b0) := by
  induction l with
  | nil => intro d h; exact absurd h (by simp)
  | cons x rest ih =>
    intro d h
    cases d with
    | zero => rfl
    | succ j =>
      simp only [List.map_cons, List.getD_cons_succ]
      exact ih j (by simpa using h)

theorem levelMetaLoop_length (bits : List Nat) :
    ∀ acc, (levelMetaLoop bits acc).length = bits.length := by
  induction bits with
  | nil => intro acc; rfl
  | cons b rest ih =>
    intro acc
    simp only [levelMetaLoop, List.length_cons, ih]

theorem levelMetaLoop_getD (bits : List Nat) :
    ∀ (acc d : Nat), d < bits.length →
      (levelMetaLoop bits acc).getD d (0, 0) =
        (if bits.getD d 0 = 32 then 4294967295
         else (((1 <<< bits.getD d 0) - 1) <<< u32sub 32 (acc + sumTake bits (d+1))) % U32,
         u32sub 32 (acc + sumTake bits (d+1))) := by
  induction bits with
  | nil => intro acc d h; exact absurd h (by simp)
  | cons b rest ih =>
    intro acc d h
    cases d with
    | zero =>
      have h1 : sumTake (b :: rest) 1 = b := by simp [sumTake]
      simp only [levelMetaLoop, List.getD_cons_zero, h1]
    | succ j =>
      have hlen : j < rest.length := by simpa using h
      have h2 : sumTake (b :: rest) (j+2) = b + sumTake rest (j+1) := by
        simp [sumTake]
      simp only [levelMetaLoop, List.getD_cons_succ]
      rw [ih (acc + b) j hlen, h2, Nat.add_assoc]

/-- The clean closed form of one computed level mask. -/
theorem head_mask_clean (acc b : Nat) (h : acc + b ≤ 32) :
    (if b = 32 then 4294967295
     else (((1 <<< b) - 1) <<< u32sub 32 (acc + b)) % U32) =
      (2 ^ b - 1) <<< (32 - (acc + b)) := by
  by_cases hb : b = 32
  · subst hb
    have hacc : acc = 0 := by omega
    subst hacc
    decide
  · rw [if_neg hb, u32sub_eq _ h]
    have h1 : (1 : Nat) <<< b = 2 ^ b := by rw [Nat.shiftLeft_eq, Nat.one_mul]
    rw [h1]
    apply Nat.mod_eq_of_lt
    rw [Nat.shiftLeft_eq]
    have h2 : (2 ^ b - 1) * 2 ^ (32 - (acc + b)) < 2 ^ b * 2 ^ (32 - (acc + b)) :=
      (Nat.mul_lt_mul_right (Nat.two_pow_pos _)).mpr
        (Nat.sub_lt (Nat.two_pow_pos b) (by norm_num))
    have h3 : 2 ^ b * 2 ^ (32 - (acc + b)) ≤ 2 ^ 32 := by
      rw [← Nat.pow_add]
      exact Nat.pow_le_pow_right (by norm_num) (by omega)
    have h4 : U32 = 2 ^ 32 := by decide
    omega

theorem createPageTable_shift_eq (bits : List Nat) (hsum : bits.sum ≤ 32) :
    ∀ d, d < bits.length →
      (createPageTable bits).levelShift.getD d 0 = 32 - sumTake bits (d+1) := by
  intro d h
  show ((levelMetaLoop bits 0).map (·.2)).getD d 0 = _
  have hlen : d < (levelMetaLoop bits 0).length := by rw [levelMetaLoop_length]; exact h
  rw [getD_map_fst (·.2) (0, 0) _ d hlen, levelMetaLoop_getD bits 0 d h]
  simp only [Nat.zero_add]
  exact u32sub_eq _ (Nat.le_trans (sumTake_le_sum bits (d+1)) hsum)

theorem createPageTable_mask_eq (bits : List Nat) (hsum : bits.sum ≤ 32) :
    ∀ d, d < bits.length →
      (createPageTable bits).levelMask.getD d 0 =
        (2 ^ bits.getD d 0 - 1) <<< (32 - sumTake bits (d+1)) := by
  intro d h
  show ((levelMetaLoop bits 0).map (·.1)).getD d 0 = _
  have hlen : d < (levelMetaLoop bits 0).length := by rw [levelMetaLoop_length]; exact h
  rw [getD_map_fst (·.1) (0, 0) _ d hlen, levelMetaLoop_getD bits 0 d h]
  simp only [Nat.zero_add]
  have hst : sumTake bits (d+1) = sumTake bits d + bits.getD d 0 := sumTake_succ bits d
  have hle : sumTake bits (d+1) ≤ 32 := Nat.le_trans (sumTake_le_sum bits (d+1)) hsum
  have hclean := head_mask_clean (sumTake bits d) (bits.getD d 0) (by omega)
  rw [← hst] at hclean
  exact hclean

theorem createPageTable_offsetBits_eq (bits : List Nat) (hsum : bits.sum ≤ 32) :
    (createPageTable bits).offsetBits = 32 - bits.sum := by
  show u32sub 32 (bits.sum % U32) = 32 - bits.sum
  have h1 : bits.sum % U32 = bits.sum := Nat.mod_eq_of_lt (by unfold U32; omega)
  rw [h1]
  exact u32sub_eq _ hsum

theorem sum_pos_of_nonempty (bits : List Nat) (hne : bits ≠ [])
    (hpos : ∀ b ∈ bits, 1 ≤ b) : 1 ≤ bits.sum := by
  cases bits with
  | nil => exact absurd rfl hne
  | cons b rest =>
    have hb := hpos b (List.mem_cons_self b rest)
    simp only [List.sum_cons]
    omega

theorem createPageTable_offsetMask_eq (bits : List Nat) (hne : bits ≠ [])
    (hpos : ∀ b ∈ bits, 1 ≤ b) (hsum : bits.sum ≤ 32) :
    (createPageTable bits).offsetMask = 2 ^ (32 - bits.sum) - 1 := by
  have hpos1 := sum_pos_of_nonempty bits hne hpos
  have h1 : bits.sum % U32 = bits.sum := Nat.mod_eq_of_lt (by unfold U32; omega)
  show (if u32sub 32 (bits.sum % U32) = 32 then 4294967295
        else ((1 <<< u32sub 32 (bits.sum % U32)) - 1) % U32) = _
  rw [h1, u32sub_eq _ hsum, if_neg (by omega)]
  rw [Nat.shiftLeft_eq, Nat.one_mul]
  apply Nat.mod_eq_of_lt
  have h2 : 2 ^ (32 - bits.sum) ≤ 2 ^ 32 := Nat.pow_le_pow_right (by norm_num) (by omega)
  have h3 : U32 = 2 ^ 32 := by decide
  omega

/-- Two contiguous bit slices with disjoint ranges have AND zero. -/
theorem mask_and_mask_eq_zero (a b s t : Nat) (h : t + b ≤ s) :
    ((2 ^ a - 1) <<< s) &&& ((2 ^ b - 1) <<< t) = 0 := by
  apply Nat.eq_of_testBit_eq
  intro i
  rw [Nat.zero_testBit, Nat.testBit_and, Nat.testBit_shiftLeft, Nat.testBit_shiftLeft,
    Nat.testBit_two_pow_sub_one, Nat.testBit_two_pow_sub_one]
  by_cases h2 : i - t < b
  · have h1 : ¬ s ≤ i := by omega
    simp [h1]
  · simp [h2]

/-- OR of two adjacent contiguous slices is the combined contiguous slice. -/
theorem or_adjacent (p b s : Nat) :
    ((2 ^ p - 1) <<< (s + b)) ||| ((2 ^ b - 1) <<< s) = (2 ^ (p + b) - 1) <<< s := by
  apply Nat.eq_of_testBit_eq
  intro i
  rw [Nat.testBit_or, Nat.testBit_shiftLeft, Nat.testBit_shiftLeft, Nat.testBit_shiftLeft,
    Nat.testBit_two_pow_sub_one, Nat.testBit_two_pow_sub_one, Nat.testBit_two_pow_sub_one]
  by_cases h1 : s ≤ i
  · by_cases h2 : s + b ≤ i
    · have h3 : ¬ (i - s < b) := by omega
      have h4 : (i - (s + b) < p) = (i - s < p + b) := by
        apply propext
        constructor <;> intro <;> omega
      simp [h1, h2, h3, h4]
    · have h3 : i - s < b := by omega
      have h4 : i - s < p + b := by omega
      simp [h1, h2, h3, h4]
  · have h2 : ¬ (s + b ≤ i) := by omega
    simp [h1, h2]

theorem cover_loop (bits : List Nat) :
    ∀ acc, acc + bits.sum ≤ 32 →
      ((levelMetaLoop bits acc).map (·.1)).foldr (· ||| ·) 0 =
        (2 ^ bits.sum - 1) <<< (32 - (acc + bits.sum)) := by
  induction bits with
  | nil => intro acc h; simp [levelMetaLoop]
  | cons b rest ih =>
    intro acc h
    simp only [List.sum_cons] at h
    simp only [levelMetaLoop, List.map_cons, List.foldr_cons, List.sum_cons]
    rw [ih (acc + b) (by omega)]
    rw [head_mask_clean acc b (by omega)]
    have hs : 32 - (acc + b) = (32 - (acc + b + rest.sum)) + rest.sum := by omega
    rw [hs, or_adjacent b rest.sum (32 - (acc + b + rest.sum))]
    have ha : acc + (b + rest.sum) = acc + b + rest.sum := by omega
    rw [ha]

/-- C3: for every valid configuration (positive level bit-widths summing to
at most 32), createPageTable derives an offset width with which the level
widths sum exactly to 32; every level mask is the contiguous slice
(2^bits - 1) shifted to its level position, the masks (and the offset mask)
are pairwise disjoint, and together with the offset mask they cover all 32
address bits; when a level's bit-width is the whole address width its mask
is all ones and its shift 0. -/
theorem claim_C3_partition (bits : List Nat) (hne : bits ≠ [])
    (hpos : ∀ b ∈ bits, 1 ≤ b) (hsum : bits.sum ≤ 32) :
    bits.sum + (createPageTable bits).offsetBits = 32 ∧
    (∀ d, d < bits.length →
      (createPageTable bits).levelShift.getD d 0 = 32 - sumTake bits (d+1) ∧
      (createPageTable bits).levelMask.getD d 0 =
        (2 ^ bits.getD d 0 - 1) <<< ((createPageTable bits).levelShift.getD d 0)) ∧
    (createPageTable bits).offsetMask = 2 ^ (createPageTable bits).offsetBits - 1 ∧
    (∀ d e, d ≠ e → d < bits.length → e < bits.length →
      (createPageTable bits).levelMask.getD d 0 &&&
        (createPageTable bits).levelMask.getD e 0 = 0) ∧
    (∀ d, d < bits.length →
      (createPageTable bits).levelMask.getD d 0 &&& (createPageTable bits).offsetMask = 0) ∧
    ((createPageTable bits).levelMask.foldr (· ||| ·) 0 |||
        (createPageTable bits).offsetMask = 4294967295) ∧
    (∀ d, d < bits.length → bits.getD d 0 = 32 →
      (createPageTable bits).levelMask.getD d 0 = 4294967295 ∧
      (createPageTable bits).levelShift.getD d 0 = 0) := by
  have hob := createPageTable_offsetBits_eq bits hsum
  have hom := createPageTable_offsetMask_eq bits hne hpos hsum
  have hmask := createPageTable_mask_eq bits hsum
  have hshift := createPageTable_shift_eq bits hsum
  have hmain : ∀ d e, d < e → e < bits.length →
      (createPageTable bits).levelMask.getD d 0 &&&
        (createPageTable bits).levelMask.getD e 0 = 0 := by
    intro d e hde he
    have hd : d < bits.length := Nat.lt_trans hde he
    rw [hmask d hd, hmask e he]
    have h1 : sumTake bits (e+1) = sumTake bits e + bits.getD e 0 := sumTake_succ bits e
    have h2 : sumTake bits (e+1) ≤ 32 := Nat.le_trans (sumTake_le_sum bits (e+1)) hsum
    have h3 : sumTake bits (d+1) ≤ sumTake bits e := sumTake_mono bits (d+1) e hde
    apply mask_and_mask_eq_zero
    omega
  refine ⟨by omega, fun d hd => ⟨hshift d hd, by rw [hmask d hd, hshift d hd]⟩, by
      rw [hom, hob], ?_, ?_, ?_, ?_⟩
  · intro d e hde hdl hel
    rcases Nat.lt_or_ge d e with h | h
    · exact hmain d e h hel
    · have h2 : e < d := Nat.lt_of_le_of_ne h (fun hc => hde hc.symm)
      rw [Nat.land_comm]
      exact hmain e d h2 hdl
  · intro d hd
    rw [hmask d hd, hom]
    have h1 : sumTake bits (d+1) ≤ bits.sum := sumTake_le_sum bits (d+1)
    have key := mask_and_mask_eq_zero (bits.getD d 0) (32 - bits.sum)
      (32 - sumTake bits (d+1)) 0 (by omega)
    rw [Nat.shiftLeft_zero] at key
    exact key
  · show ((levelMetaLoop bits 0).map (·.1)).foldr (· ||| ·) 0 |||
      (createPageTable bits).offsetMask = 4294967295
    rw [cover_loop bits 0 (by omega), hom]
    simp only [Nat.zero_add]
    have key := or_adjacent bits.sum (32 - bits.sum) 0
    rw [Nat.zero_add, Nat.shiftLeft_zero, Nat.shiftLeft_zero] at key
    rw [key]
    have he : bits.sum + (32 - bits.sum) = 32 := by omega
    rw [he]
    decide
  · intro d hd hb
    have h1 : sumTake bits (d+1) = sumTake bits d + bits.getD d 0 := sumTake_succ bits d
    have h2 : sumTake bits (d+1) ≤ 32 := Nat.le_trans (sumTake_le_sum bits (d+1)) hsum
    have h3 : sumTake bits (d+1) = 32 := by omega
    constructor
    · rw [hmask d hd, hb, h3]
      decide
    · rw [hshift d hd, h3]

/-- Witness for C3 at the edge-case configuration with a single level of the
full 32-bit address width. -/
theorem claim_C3_partition_witness :
    [32].sum + (createPageTable [32]).offsetBits = 32 ∧
    (∀ d, d < [32].length →
      (createPageTable [32]).levelShift.getD d 0 = 32 - sumTake [32] (d+1) ∧
      (createPageTable [32]).levelMask.getD d 0 =
        (2 ^ [32].getD d 0 - 1) <<< ((createPageTable [32]).levelShift.getD d 0)) ∧
    (createPageTable [32]).offsetMask = 2 ^ (createPageTable [32]).offsetBits - 1 ∧
    (∀ d e, d ≠ e → d < [32].length → e < [32].length →
      (createPageTable [32]).levelMask.getD d 0 &&&
        (createPageTable [32]).levelMask.getD e 0 = 0) ∧
    (∀ d, d < [32].length →
      (createPageTable [32]).levelMask.getD d 0 &&& (createPageTable [32]).offsetMask = 0) ∧
    ((createPageTable [32]).levelMask.foldr (· ||| ·) 0 |||
        (createPageTable [32]).offsetMask = 4294967295) ∧
    (∀ d, d < [32].length → [32].getD d 0 = 32 →
      (createPageTable [32]).levelMask.getD d 0 = 4294967295 ∧
      (createPageTable [32]).levelShift.getD d 0 = 0) :=
  claim_C3_partition [32] (by decide) (by decide) (by decide)

/-! ### Structural well-formedness of the trie and the insert/search walk -/

theorem getD_set_self {α : Type} (l : List α) :
    ∀ (i : Nat) (x d : α), i < l.length → (l.set i x).getD i d = x := by
  induction l with
  | nil => intro i x d h; exact absurd h (by simp)
  | cons a rest ih =>
    intro i x d h
    cases i with
    | zero => rfl
    | succ j => exact ih j x d (by simpa using h)

theorem getD_set_ne {α : Type} (l : List α) :
    ∀ (i j : Nat) (x d : α), i ≠ j → (l.set i x).getD j d = l.getD j d := by
  induction l with
  | nil => intro i j x d h; rfl
  | cons a rest ih =>
    intro i j x d h
    cases i with
    | zero =>
      cases j with
      | zero => exact absurd rfl h
      | succ k => rfl
    | succ i2 =>
      cases j with
      | zero => rfl
      | succ k =>
        show (rest.set i2 x).getD k d = rest.getD k d
        exact ih i2 k x d (by omega)

theorem getD_replicate {α : Type} :
    ∀ (n j : Nat) (x d : α), (List.replicate n x).getD j d = if j < n then x else d := by
  intro n
  induction n with
  | zero => intro j x d; simp
  | succ m ih =>
    intro j x d
    cases j with
    | zero => simp [List.replicate]
    | succ k =>
      show (List.replicate m x).getD k d = _
      rw [ih k x d]
      by_cases h : k < m
      · rw [if_pos h, if_pos (by omega)]
      · rw [if_neg h, if_neg (by omega)]

theorem getD_set_self2 {α : Type} {l : List α} {i : Nat} (h : i < l.length) (x d : α) :
    (l.set i x).getD i d = x := getD_set_self l i x d h

theorem getD_set_ne2 {α : Type} {l : List α} {i j : Nat} (h : i ≠ j) (x d : α) :
    (l.set i x).getD j d = l.getD j d := getD_set_ne l i j x d h

/-- Structural well-formedness of a trie node at depth d, to remaining
height `fuel`: the entry count is 2^(bits at this depth) and every allocated
array has exactly that length, recursively.  Parametrized by the level
bit-width list so it is independent of the root field of the table. -/
def WFLevel (bits : List Nat) : Nat → Nat → Level → Prop
  | 0, _, _ => True
  | fuel+1, d, lvl =>
    lvl.entryCount = 2 ^ bits.getD d 0 ∧
    (∀ arr, lvl.mapArray = some arr → arr.length = lvl.entryCount) ∧
    (∀ children, lvl.nextLevelArray = some children →
      children.length = lvl.entryCount ∧
      ∀ l : Level, some l ∈ children → WFLevel bits fuel (d+1) l)

/-- The metadata createPageTable computes, as a reusable hypothesis bundle
for tables produced by createPageTable and mutated only through
insertMapForVpn2Pfn (which leaves every metadata field unchanged). -/
structure PTMetaOK (pt : PageTable) (bits : List Nat) : Prop where
  hcount : pt.levelCount = bits.length
  hne : bits ≠ []
  hpos : ∀ b ∈ bits, 1 ≤ b
  hsum : bits.sum ≤ 28
  hlb : pt.levelBits = bits
  hmask : ∀ d, d < bits.length →
    pt.levelMask.getD d 0 = (2 ^ bits.getD d 0 - 1) <<< (32 - sumTake bits (d+1))
  hshift : ∀ d, d < bits.length → pt.levelShift.getD d 0 = 32 - sumTake bits (d+1)
  hoffset : pt.offsetBits = 32 - bits.sum

theorem getD_le_sum (bits : List Nat) (d : Nat) (h : d < bits.length) :
    bits.getD d 0 ≤ bits.sum := by
  have h1 := sumTake_succ bits d
  have h2 := sumTake_le_sum bits (d+1)
  omega

theorem createPageTable_meta_ok (bits : List Nat) (hne : bits ≠ [])
    (hpos : ∀ b ∈ bits, 1 ≤ b) (hsum : bits.sum ≤ 28) :
    PTMetaOK (createPageTable bits) bits where
  hcount := rfl
  hne := hne
  hpos := hpos
  hsum := hsum
  hlb := rfl
  hmask := createPageTable_mask_eq bits (by omega)
  hshift := createPageTable_shift_eq bits (by omega)
  hoffset := createPageTable_offsetBits_eq bits (by omega)

theorem insert_meta_ok {pt : PageTable} {bits : List Nat} (h : PTMetaOK pt bits)
    (va : Nat) (f : Int) : PTMetaOK (insertMapForVpn2Pfn pt va f) bits where
  hcount := h.hcount
  hne := h.hne
  hpos := h.hpos
  hsum := h.hsum
  hlb := h.hlb
  hmask := h.hmask
  hshift := h.hshift
  hoffset := h.hoffset

theorem and_mask_shift (x b s : Nat) :
    (x &&& ((2 ^ b - 1) <<< s)) >>> s = (x >>> s) % 2 ^ b := by
  apply Nat.eq_of_testBit_eq
  intro i
  rw [Nat.testBit_shiftRight, Nat.testBit_and, Nat.testBit_shiftLeft,
    Nat.testBit_two_pow_sub_one, Nat.testBit_mod_two_pow, Nat.testBit_shiftRight]
  have h1 : s ≤ s + i := Nat.le_add_right s i
  have h2 : s + i - s = i := by omega
  rw [h2]
  by_cases h3 : i < b
  · simp [h1, h3]
  · simp [h3]

/-- Under the createPageTable metadata, the index extracted at depth d is
the d-th slice of the address. -/
theorem levelIndex_eq {pt : PageTable} {bits : List Nat} (hm : PTMetaOK pt bits)
    (va d : Nat) (hd : d < bits.length) :
    levelIndex pt va d = (va >>> (32 - sumTake bits (d+1))) % 2 ^ bits.getD d 0 := by
  unfold levelIndex extractVPNFromVirtualAddress
  rw [hm.hmask d hd, hm.hshift d hd]
  exact and_mask_shift va (bits.getD d 0) (32 - sumTake bits (d+1))

theorem levelIndex_lt {pt : PageTable} {bits : List Nat} (hm : PTMetaOK pt bits)
    (va d : Nat) (hd : d < bits.length) :
    levelIndex pt va d < 2 ^ bits.getD d 0 := by
  rw [levelIndex_eq hm va d hd]
  exact Nat.mod_lt _ (Nat.two_pow_pos _)

theorem one_shiftLeft_mod_U32 (b : Nat) (h : b < 32) : (1 <<< b) % U32 = 2 ^ b := by
  rw [Nat.shiftLeft_eq, Nat.one_mul]
  apply Nat.mod_eq_of_lt
  have h1 : 2 ^ b < 2 ^ 32 := Nat.pow_lt_pow_right (by norm_num) h
  have h2 : U32 = 2 ^ 32 := by decide
  omega

theorem wf_allocate (bits : List Nat) (fuel d dd e : Nat)
    (he : e = 2 ^ bits.getD d 0) :
    WFLevel bits fuel d (allocateLevel dd e) := by
  cases fuel with
  | zero => trivial
  | succ fuel =>
    refine ⟨he, ?_, ?_⟩
    · intro arr h
      exact absurd h (by simp [allocateLevel, Level.mapArray])
    · intro children h
      exact absurd h (by simp [allocateLevel, Level.nextLevelArray])

theorem searchAux_allocate (pt : PageTable) (va : Nat) :
    ∀ (fuel d dd e : Nat),
      searchMappedPfnAux pt va d fuel (allocateLevel dd e) = none := by
  intro fuel
  cases fuel with
  | zero => intro d dd e; rfl
  | succ fuel =>
    intro d dd e
    simp only [searchMappedPfnAux]
    by_cases hleaf : d = pt.levelCount - 1
    · rw [if_pos hleaf]; rfl
    · rw [if_neg hleaf]; rfl

theorem getD_mem_or {α : Type} (l : List α) :
    ∀ (i : Nat) (d : α), l.getD i d = d ∨ l.getD i d ∈ l := by
  induction l with
  | nil => intro i d; exact Or.inl rfl
  | cons a rest ih =>
    intro i d
    cases i with
    | zero => exact Or.inr (List.mem_cons_self a rest)
    | succ j =>
      rcases ih j d with h | h
      · exact Or.inl h
      · exact Or.inr (List.mem_cons_of_mem a h)

theorem getD_le_sum2 (bits : List Nat) : ∀ k, bits.getD k 0 ≤ bits.sum := by
  induction bits with
  | nil => intro k; cases k <;> simp
  | cons b rest ih =>
    intro k
    cases k with
    | zero => simp
    | succ j =>
      have := ih j
      simp only [List.getD_cons_succ, List.sum_cons]
      omega

theorem replicate_getD_none {α : Type} (n i : Nat) :
    (List.replicate n (none : Option α)).getD i none = none := by
  rw [getD_replicate]
  by_cases h : i < n <;> simp [h]

theorem insert_wf {pt : PageTable} {bits : List Nat} (hm : PTMetaOK pt bits)
    (va : Nat) (f : Int) :
    ∀ (fuel d : Nat) (curr : Level), fuel + d = pt.levelCount →
      WFLevel bits fuel d curr →
      WFLevel bits fuel d (insertMapForVpn2PfnAux pt va f d fuel curr) := by
  intro fuel
  induction fuel with
  | zero => intro d curr hfd hwf; exact hwf
  | succ fuel ih =>
    intro d curr hfd hwf
    obtain ⟨hec, hmap, hchild⟩ := hwf
    have hfresh : (1 <<< pt.levelBits.getD (d+1) 0) % U32 =
        2 ^ bits.getD (d+1) 0 := by
      rw [hm.hlb]
      apply one_shiftLeft_mod_U32
      have := getD_le_sum2 bits (d+1)
      have := hm.hsum
      omega
    simp only [insertMapForVpn2PfnAux]
    by_cases hleaf : d = pt.levelCount - 1
    · rw [if_pos hleaf]
      cases curr with
      | mk cd ce cn cm =>
        simp only [Level.entryCount, Level.mapArray, Level.nextLevelArray,
          Level.withMaps] at *
        refine ⟨hec, ?_, fun children h => hchild children h⟩
        intro arr h
        cases hcm : cm with
        | none =>
          rw [hcm] at h
          simp only [Option.getD_none] at h
          injection h with h
          rw [← h, List.length_set, List.length_replicate]
          rfl
        | some arr0 =>
          rw [hcm] at h
          simp only [Option.getD_some] at h
          injection h with h
          rw [← h, List.length_set]
          exact hmap arr0 hcm
    · rw [if_neg hleaf]
      cases curr with
      | mk cd ce cn cm =>
        simp only [Level.entryCount, Level.mapArray, Level.nextLevelArray,
          Level.withNext] at *
        have hstep : fuel + (d + 1) = pt.levelCount := by omega
        refine ⟨hec, fun arr h => hmap arr h, ?_⟩
        intro children h
        injection h with h
        cases hcn : cn with
        | none =>
          rw [hcn] at h
          simp only [Option.getD_none] at h
          rw [replicate_getD_none] at h
          constructor
          · rw [← h, List.length_set, List.length_replicate]
            rfl
          · intro l hl
            rw [← h] at hl
            rcases List.mem_or_eq_of_mem_set hl with hold | hnew
            · have := List.eq_of_mem_replicate hold
              exact absurd this (by simp)
            · injection hnew with hnew
              rw [hnew]
              exact ih (d+1) _ hstep (wf_allocate bits fuel (d+1) (d+1) _ hfresh)
        | some ch0 =>
          rw [hcn] at h
          simp only [Option.getD_some] at h
          constructor
          · rw [← h, List.length_set]
            exact (hchild ch0 hcn).1
          · intro l hl
            rw [← h] at hl
            rcases List.mem_or_eq_of_mem_set hl with hold | hnew
            · exact (hchild ch0 hcn).2 l hold
            · injection hnew with hnew
              rw [hnew]
              cases hc : ch0.getD (levelIndex pt va d) none with
              | none =>
                exact ih (d+1) _ hstep (wf_allocate bits fuel (d+1) (d+1) _ hfresh)
              | some c =>
                apply ih (d+1) c hstep
                rcases getD_mem_or ch0 (levelIndex pt va d) none with h2 | h2
                · rw [hc] at h2; exact absurd h2 (by simp)
                · rw [hc] at h2
                  exact (hchild ch0 hcn).2 c h2

/-- Master lemma for the walk: searching vb after inserting va at frame f
yields the inserted slot value when every remaining level index of va and vb
agrees, and is otherwise untouched. -/
theorem search_insert_aux {pt : PageTable} {bits : List Nat} (hm : PTMetaOK pt bits)
    (va vb : Nat) (f : Int) :
    ∀ (fuel d : Nat) (curr : Level), fuel + d = pt.levelCount → d < pt.levelCount →
      WFLevel bits fuel d curr →
      searchMappedPfnAux pt vb d fuel (insertMapForVpn2PfnAux pt va f d fuel curr) =
        (if ∀ e, e < pt.levelCount → d ≤ e → levelIndex pt va e = levelIndex pt vb e then
          (if 0 ≤ f then some { frameNumber := f, valid := true } else none)
        else searchMappedPfnAux pt vb d fuel curr) := by
  intro fuel
  induction fuel with
  | zero => intro d curr hfd hd hwf; omega
  | succ fuel ih =>
    intro d curr hfd hd hwf
    obtain ⟨hec, hmap, hchild⟩ := hwf
    have hd2 : d < bits.length := by rw [← hm.hcount]; exact hd
    have hia : levelIndex pt va d < 2 ^ bits.getD d 0 :=
      levelIndex_lt hm va d hd2
    have hib : levelIndex pt vb d < 2 ^ bits.getD d 0 :=
      levelIndex_lt hm vb d hd2
    by_cases hleaf : d = pt.levelCount - 1
    · -- terminal level
      have hcond : (∀ e, e < pt.levelCount → d ≤ e →
          levelIndex pt va e = levelIndex pt vb e) ↔
          levelIndex pt va d = levelIndex pt vb d := by
        constructor
        · intro h; exact h d hd (Nat.le_refl d)
        · intro h e he hde
          have : e = d := by omega
          rw [this]; exact h
      cases curr with
      | mk cd ce cn cm =>
        simp only [Level.entryCount, Level.mapArray, Level.nextLevelArray] at hec hmap hchild
        simp only [insertMapForVpn2PfnAux]
        rw [if_pos hleaf]
        simp only [Level.withMaps, Level.mapArray, Level.entryCount]
        simp only [searchMappedPfnAux]
        rw [if_pos hleaf]
        simp only [Level.mapArray]
        have harrlen : (cm.getD (List.replicate ce defaultMap)).length = ce := by
          cases hcm : cm with
          | none => simp
          | some arr0 => simpa using hmap arr0 hcm
        have hb1 : levelIndex pt vb d < (cm.getD (List.replicate ce defaultMap)).length := by
          rw [harrlen, hec]; exact hib
        by_cases hii : levelIndex pt va d = levelIndex pt vb d
        · rw [if_pos (hcond.mpr hii), hii]
          simp only [getD_set_self2 hb1]
          by_cases hf : 0 ≤ f
          · have hdf : decide (0 ≤ f) = true := decide_eq_true hf
            have hnl : ¬ f < 0 := Int.not_lt.mpr hf
            simp [hdf, hnl, hf]
          · have hdf : decide (0 ≤ f) = false := decide_eq_false hf
            simp [hdf, hf]
        · rw [if_neg (fun hc => hii (hcond.mp hc))]
          simp only [getD_set_ne2 hii]
          cases hcm : cm with
          | none =>
            simp only [Option.getD_none]
            rw [if_pos hleaf]
            have hrep : (List.replicate ce defaultMap).getD (levelIndex pt vb d)
                defaultMap = defaultMap := by
              rw [getD_replicate]
              by_cases h : levelIndex pt vb d < ce <;> simp [h]
            simp only [hrep]
            simp [defaultMap]
          | some arr0 =>
            simp only [Option.getD_some]
            rw [if_pos hleaf]
    · -- interior level
      have hd1 : d + 1 < pt.levelCount := by omega
      have hstep : fuel + (d + 1) = pt.levelCount := by omega
      have hcond : (∀ e, e < pt.levelCount → d ≤ e →
          levelIndex pt va e = levelIndex pt vb e) ↔
          (levelIndex pt va d = levelIndex pt vb d ∧
            ∀ e, e < pt.levelCount → d + 1 ≤ e →
              levelIndex pt va e = levelIndex pt vb e) := by
        constructor
        · intro h
          exact ⟨h d hd (Nat.le_refl d), fun e he hde => h e he (by omega)⟩
        · rintro ⟨h1, h2⟩ e he hde
          rcases Nat.eq_or_lt_of_le hde with he2 | he2
          · rw [← he2]; exact h1
          · exact h2 e he (by omega)
      have hfresh : (1 <<< pt.levelBits.getD (d+1) 0) % U32 =
          2 ^ bits.getD (d+1) 0 := by
        rw [hm.hlb]
        apply one_shiftLeft_mod_U32
        have := getD_le_sum2 bits (d+1)
        have := hm.hsum
        omega
      cases curr with
      | mk cd ce cn cm =>
        simp only [Level.entryCount, Level.mapArray, Level.nextLevelArray] at hec hmap hchild
        simp only [insertMapForVpn2PfnAux]
        rw [if_neg hleaf]
        simp only [Level.withNext, Level.nextLevelArray, Level.entryCount]
        simp only [searchMappedPfnAux]
        rw [if_neg hleaf]
        simp only [Level.nextLevelArray]
        have hlen0 : (cn.getD (List.replicate ce (none : Option Level))).length = ce := by
          cases hcn : cn with
          | none => simp
          | some ch0 => simpa using (hchild ch0 hcn).1
        have hb2 : levelIndex pt vb d <
            (cn.getD (List.replicate ce (none : Option Level))).length := by
          rw [hlen0, hec]; exact hib
        by_cases hii : levelIndex pt va d = levelIndex pt vb d
        · rw [hii]
          simp only [getD_set_self2 hb2]
          have hwfchild : WFLevel bits fuel (d+1)
              (match (cn.getD (List.replicate ce (none : Option Level))).getD
                  (levelIndex pt vb d) none with
                | some c => c
                | none => allocateLevel (d+1) ((1 <<< pt.levelBits.getD (d+1) 0) % U32)) := by
            cases hc : (cn.getD (List.replicate ce (none : Option Level))).getD
                (levelIndex pt vb d) none with
            | none => exact wf_allocate bits fuel (d+1) (d+1) _ hfresh
            | some c =>
              cases hcn : cn with
              | none =>
                rw [hcn] at hc
                simp only [Option.getD_none] at hc
                rw [replicate_getD_none] at hc
                exact absurd hc (by simp)
              | some ch0 =>
                rw [hcn] at hc
                simp only [Option.getD_some] at hc
                rcases getD_mem_or ch0 (levelIndex pt vb d) none with h2 | h2
                · rw [hc] at h2; exact absurd h2 (by simp)
                · rw [hc] at h2
                  exact (hchild ch0 hcn).2 c h2
          rw [ih (d+1) _ hstep hd1 hwfchild]
          by_cases hrest : ∀ e, e < pt.levelCount → d + 1 ≤ e →
              levelIndex pt va e = levelIndex pt vb e
          · rw [if_pos hrest, if_pos (hcond.mpr ⟨hii, hrest⟩)]
          · rw [if_neg hrest, if_neg (fun hc => hrest (hcond.mp hc).2)]
            cases hcn : cn with
            | none =>
              simp only [Option.getD_none]
              rw [replicate_getD_none]
              show searchMappedPfnAux pt vb (d+1) fuel
                (allocateLevel (d+1) ((1 <<< pt.levelBits.getD (d+1) 0) % U32)) = _
              rw [searchAux_allocate pt vb fuel (d+1) (d+1) _, if_neg hleaf]
            | some ch0 =>
              simp only [Option.getD_some]
              cases hc : ch0.getD (levelIndex pt vb d) none with
              | none =>
                show searchMappedPfnAux pt vb (d+1) fuel
                  (allocateLevel (d+1) ((1 <<< pt.levelBits.getD (d+1) 0) % U32)) = _
                rw [searchAux_allocate pt vb fuel (d+1) (d+1) _, if_neg hleaf]
              | some c => rw [if_neg hleaf]
        · rw [if_neg (fun hc => hii (hcond.mp hc).1)]
          simp only [getD_set_ne2 hii]
          cases hcn : cn with
          | none =>
            simp only [Option.getD_none]
            rw [replicate_getD_none, if_neg hleaf]
          | some ch0 =>
            simp only [Option.getD_some]
            rw [if_neg hleaf]

/-- searchMappedPfnAux only reads the table metadata, never the root field,
so replacing the root level leaves it unchanged. -/
theorem searchAux_set_root (pt : PageTable) (x : Level) (va : Nat) :
    ∀ (fuel d : Nat) (curr : Level),
      searchMappedPfnAux { pt with rootLevel := x } va d fuel curr =
        searchMappedPfnAux pt va d fuel curr := by
  intro fuel
  induction fuel with
  | zero => intro d curr; rfl
  | succ fuel ih =>
    intro d curr
    simp only [searchMappedPfnAux]
    rw [show levelIndex { pt with rootLevel := x } va d = levelIndex pt va d from rfl]
    by_cases hleaf : d = pt.levelCount - 1
    · rw [if_pos hleaf, if_pos hleaf]
    · rw [if_neg hleaf, if_neg hleaf]
      cases hn : curr.nextLevelArray with
      | none => rfl
      | some children =>
        simp only []
        cases hc : children.getD (levelIndex pt va d) none with
        | none => rfl
        | some next => exact ih (d+1) next

/-- Master lemma at the table level. -/
theorem search_insert {pt : PageTable} {bits : List Nat} (hm : PTMetaOK pt bits)
    (hwf : WFLevel bits pt.levelCount 0 pt.rootLevel) (va vb : Nat) (f : Int) :
    searchMappedPfn (insertMapForVpn2Pfn pt va f) vb =
      (if ∀ e, e < pt.levelCount → levelIndex pt va e = levelIndex pt vb e then
        (if 0 ≤ f then some { frameNumber := f, valid := true } else none)
      else searchMappedPfn pt vb) := by
  have hn1 : 0 < pt.levelCount := by
    rw [hm.hcount]
    cases hb : bits with
    | nil => exact absurd hb hm.hne
    | cons b r => simp
  show searchMappedPfnAux
      { pt with
        rootLevel := insertMapForVpn2PfnAux pt va f 0 pt.levelCount pt.rootLevel }
      vb 0 pt.levelCount
      (insertMapForVpn2PfnAux pt va f 0 pt.levelCount pt.rootLevel) = _
  rw [searchAux_set_root]
  rw [search_insert_aux hm va vb f pt.levelCount 0 pt.rootLevel (by omega) hn1 hwf]
  apply if_congr _ rfl rfl
  exact ⟨fun h e he => h e he (Nat.zero_le e), fun h e he _ => h e he⟩

theorem shiftRight_lt_pow (x s a : Nat) (h : x < 2 ^ (a + s)) : x >>> s < 2 ^ a := by
  rw [Nat.shiftRight_eq_div_pow]
  apply Nat.div_lt_of_lt_mul
  rw [← Nat.pow_add]
  rw [Nat.add_comm s a]
  exact h

theorem sumTake_length (bits : List Nat) : sumTake bits bits.length = bits.sum := by
  unfold sumTake
  rw [List.take_length]

/-- Under the createPageTable metadata, two 32-bit addresses extract the
same index at every level exactly when they have the same full VPN. -/
theorem sameIdx_iff_sameVPN {pt : PageTable} {bits : List Nat} (hm : PTMetaOK pt bits)
    (va vb : Nat) (hva : va < U32) (hvb : vb < U32) :
    (∀ e, e < pt.levelCount → levelIndex pt va e = levelIndex pt vb e) ↔
      va >>> pt.offsetBits = vb >>> pt.offsetBits := by
  have hu : U32 = 2 ^ 32 := by decide
  have hsum32 : bits.sum ≤ 32 := by have := hm.hsum; omega
  have hlen : 0 < bits.length := by
    cases hb : bits with
    | nil => exact absurd hb hm.hne
    | cons b r => simp
  constructor
  · intro h
    have hstep : ∀ d, d < bits.length →
        va >>> (32 - sumTake bits (d+1)) = vb >>> (32 - sumTake bits (d+1)) := by
      intro d
      induction d with
      | zero =>
        intro hd
        simp only [Nat.zero_add]
        have h0 : sumTake bits 0 = 0 := rfl
        have h1 : sumTake bits 1 = sumTake bits 0 + bits.getD 0 0 := sumTake_succ bits 0
        have hb0 : bits.getD 0 0 ≤ 32 := by
          have := getD_le_sum2 bits 0
          omega
        have hlta : va >>> (32 - sumTake bits 1) < 2 ^ bits.getD 0 0 := by
          apply shiftRight_lt_pow
          have h2 : bits.getD 0 0 + (32 - sumTake bits 1) = 32 := by omega
          rw [h2, ← hu]
          exact hva
        have hltb : vb >>> (32 - sumTake bits 1) < 2 ^ bits.getD 0 0 := by
          apply shiftRight_lt_pow
          have h2 : bits.getD 0 0 + (32 - sumTake bits 1) = 32 := by omega
          rw [h2, ← hu]
          exact hvb
        have hidx := h 0 (by rw [hm.hcount]; exact hd)
        rw [levelIndex_eq hm va 0 hd, levelIndex_eq hm vb 0 hd] at hidx
        simp only [Nat.zero_add] at hidx
        rw [Nat.mod_eq_of_lt hlta, Nat.mod_eq_of_lt hltb] at hidx
        exact hidx
      | succ d ihd =>
        intro hd
        have hdlt : d < bits.length := by omega
        have ihv := ihd hdlt
        have hst : sumTake bits (d+1+1) = sumTake bits (d+1) + bits.getD (d+1) 0 :=
          sumTake_succ bits (d+1)
        have hle : sumTake bits (d+1+1) ≤ 32 :=
          Nat.le_trans (sumTake_le_sum bits (d+1+1)) hsum32
        have hidx := h (d+1) (by rw [hm.hcount]; exact hd)
        rw [levelIndex_eq hm va (d+1) hd, levelIndex_eq hm vb (d+1) hd] at hidx
        have hdiv : ∀ x : Nat, (x >>> (32 - sumTake bits (d+1+1))) / 2 ^ bits.getD (d+1) 0 =
            x >>> (32 - sumTake bits (d+1)) := by
          intro x
          rw [Nat.shiftRight_eq_div_pow, Nat.shiftRight_eq_div_pow,
            Nat.div_div_eq_div_mul, ← Nat.pow_add]
          have h32 : 32 - sumTake bits (d+1+1) + bits.getD (d+1) 0 =
              32 - sumTake bits (d+1) := by
            omega
          rw [h32]
        have hva2 := (Nat.div_add_mod (va >>> (32 - sumTake bits (d+1+1)))
          (2 ^ bits.getD (d+1) 0)).symm
        have hvb2 := (Nat.div_add_mod (vb >>> (32 - sumTake bits (d+1+1)))
          (2 ^ bits.getD (d+1) 0)).symm
        rw [hdiv va, ihv] at hva2
        rw [hdiv vb] at hvb2
        rw [hva2, hvb2, hidx]
    have hfin := hstep (bits.length - 1) (by omega)
    have : bits.length - 1 + 1 = bits.length := by omega
    rw [this, sumTake_length] at hfin
    rw [hm.hoffset]
    exact hfin
  · intro h e he
    have he2 : e < bits.length := by rw [← hm.hcount]; exact he
    rw [levelIndex_eq hm va e he2, levelIndex_eq hm vb e he2]
    have h1 : sumTake bits (e+1) ≤ bits.sum := sumTake_le_sum bits (e+1)
    have h2 : 32 - sumTake bits (e+1) =
        (32 - bits.sum) + (bits.sum - sumTake bits (e+1)) := by omega
    have hsh : ∀ x : Nat, x >>> (32 - sumTake bits (e+1)) =
        (x >>> (32 - bits.sum)) >>> (bits.sum - sumTake bits (e+1)) := by
      intro x
      rw [h2, Nat.shiftRight_add]
    rw [hsh va, hsh vb, ← hm.hoffset, h]

theorem createPageTable_wf (bits : List Nat) (hsum : bits.sum ≤ 28) :
    WFLevel bits (createPageTable bits).levelCount 0
      (createPageTable bits).rootLevel := by
  show WFLevel _ _ 0 (allocateLevel 0 ((1 <<< bits.headD 0) % U32))
  apply wf_allocate
  have hb : bits.getD 0 0 < 32 := by
    have := getD_le_sum2 bits 0
    omega
  have hh : bits.headD 0 = bits.getD 0 0 := by cases bits <;> rfl
  rw [hh, one_shiftLeft_mod_U32 _ hb]

/-! ### Claim C4: insert/translate round trip -/

/-- C4: for a structurally well-formed table carrying the createPageTable
metadata, inserting a mapping for address va with a (nonnegative) frame f
and then translating va immediately returns exactly that frame. -/
theorem claim_C4_roundtrip (pt : PageTable) (bits : List Nat) (hm : PTMetaOK pt bits)
    (hwf : WFLevel bits pt.levelCount 0 pt.rootLevel) (va : Nat) (f : Int) (hf : 0 ≤ f) :
    searchMappedPfn (insertMapForVpn2Pfn pt va f) va =
      some { frameNumber := f, valid := true } := by
  rw [search_insert hm hwf va va f, if_pos (fun e _ => rfl), if_pos hf]

/-- Witness for C4: configuration [4, 8, 8], address 0x12345678, frame 7. -/
theorem claim_C4_roundtrip_witness :
    searchMappedPfn (insertMapForVpn2Pfn (createPageTable [4, 8, 8]) 305419896 7)
      305419896 = some { frameNumber := 7, valid := true } :=
  claim_C4_roundtrip (createPageTable [4, 8, 8]) [4, 8, 8]
    (createPageTable_meta_ok [4, 8, 8] (by decide) (by decide) (by decide))
    (createPageTable_wf [4, 8, 8] (by decide)) 305419896 7 (by decide)

/-! ### Claim C5: replacement-state invariants -/

/-- The frame numbers of the resident records, in storage order. -/
def framesOf (rs : ReplacementState) : List Int := rs.loaded.map (·.frameNumber)

/-- The VPNs of the resident records, in storage order. -/
def vpnsOf (rs : ReplacementState) : List Nat := rs.loaded.map (·.fullVPN)

theorem getD_map {β γ : Type} (f : β → γ) (b0 : β) (c : γ) (l : List β) :
    ∀ d, d < l.length → (l.map f).getD d c = f (l.getD d b0) := by
  induction l with
  | nil => intro d h; exact absurd h (by simp)
  | cons x rest ih =>
    intro d h
    cases d with
    | zero => rfl
    | succ j =>
      simp only [List.map_cons, List.getD_cons_succ]
      exact ih j (by simpa using h)

theorem getD_mem_of_lt {α : Type} (l : List α) :
    ∀ (i : Nat) (d : α), i < l.length → l.getD i d ∈ l := by
  induction l with
  | nil => intro i d h; exact absurd h (by simp)
  | cons x rest ih =>
    intro i d h
    cases i with
    | zero => exact List.mem_cons_self x rest
    | succ j => exact List.mem_cons_of_mem x (ih j d (by simpa using h))

theorem map_set_comm {α β : Type} (f : α → β) (l : List α) :
    ∀ (i : Nat) (x : α), (l.set i x).map f = (l.map f).set i (f x) := by
  induction l with
  | nil => intro i x; rfl
  | cons a rest ih =>
    intro i x
    cases i with
    | zero => rfl
    | succ j =>
      simp only [List.set, List.map_cons]
      rw [ih j x]

theorem nodup_set_of_not_mem {α : Type} (l : List α) :
    ∀ (i : Nat) (a : α), l.Nodup → a ∉ l → (l.set i a).Nodup := by
  induction l with
  | nil => intro i a h1 h2; exact h1
  | cons x rest ih =>
    intro i a h1 h2
    rcases List.nodup_cons.mp h1 with ⟨hx, hr⟩
    cases i with
    | zero =>
      apply List.nodup_cons.mpr
      refine ⟨fun hc => h2 (List.mem_cons_of_mem x hc), hr⟩
    | succ j =>
      apply List.nodup_cons.mpr
      constructor
      · intro hc
        rcases List.mem_or_eq_of_mem_set hc with hc2 | hc2
        · exact hx hc2
        · exact h2 (by rw [hc2]; exact List.mem_cons_self a rest)
      · exact ih j a hr (fun hc => h2 (List.mem_cons_of_mem x hc))

theorem nodup_append_singleton {α : Type} (l : List α) (a : α)
    (h1 : l.Nodup) (h2 : a ∉ l) : (l ++ [a]).Nodup := by
  rw [List.nodup_append]
  refine ⟨h1, List.nodup_singleton a, ?_⟩
  intro x hx hxa
  rw [List.mem_singleton] at hxa
  rw [hxa] at hx
  exact h2 hx

/-- A negative findLoadedVPN result means no record holds this VPN. -/
theorem findLoadedVPNAux_neg (v : Nat) :
    ∀ (l : List LoadedPageInfo) (i : Nat),
      findLoadedVPNAux v l i < 0 → ∀ e ∈ l, e.fullVPN ≠ v := by
  intro l
  induction l with
  | nil => intro i h e he; exact absurd he (by simp)
  | cons x rest ih =>
    intro i h e he
    simp only [findLoadedVPNAux] at h
    by_cases hx : x.fullVPN = v
    · rw [if_pos hx] at h
      exact absurd h (by simp [Int.not_lt])
    · rw [if_neg hx] at h
      rcases List.mem_cons.mp he with he2 | he2
      · rw [he2]; exact hx
      · exact ih (i+1) h e he2

/-- The victim scan returns -1 or an index within the record list. -/
theorem chooseVictimAux_range :
    ∀ (l : List LoadedPageInfo) (i : Nat) (a b : Nat) (bi : Int),
      (bi = -1 ∨ (0 ≤ bi ∧ bi.toNat < i)) →
      (chooseVictimAux l i a b bi = -1 ∨
        (0 ≤ chooseVictimAux l i a b bi ∧
          (chooseVictimAux l i a b bi).toNat < i + l.length)) := by
  intro l
  induction l with
  | nil =>
    intro i a b bi h
    simp only [chooseVictimAux, List.length_nil]
    rcases h with h | h
    · exact Or.inl h
    · exact Or.inr ⟨h.1, by omega⟩
  | cons e rest ih =>
    intro i a b bi h
    simp only [chooseVictimAux]
    by_cases hc : e.ageBits < a ∨ (e.ageBits = a ∧ e.lastAccessTime < b)
    · rw [if_pos hc]
      have h2 := ih (i+1) e.ageBits e.lastAccessTime (Int.ofNat i)
        (Or.inr ⟨Int.ofNat_nonneg i, by simp⟩)
      rcases h2 with h2 | h2
      · exact Or.inl h2
      · right
        refine ⟨h2.1, ?_⟩
        have h3 := h2.2
        simp only [List.length_cons]
        omega
    · rw [if_neg hc]
      have h3 : bi = -1 ∨ (0 ≤ bi ∧ bi.toNat < i + 1) := by
        rcases h with h | h
        · exact Or.inl h
        · exact Or.inr ⟨h.1, by omega⟩
      have h2 := ih (i+1) a b bi h3
      rcases h2 with h2 | h2
      · exact Or.inl h2
      · right
        refine ⟨h2.1, ?_⟩
        have h4 := h2.2
        simp only [List.length_cons]
        omega

theorem chooseVictimIndex_range (rs : ReplacementState) :
    chooseVictimIndex rs = -1 ∨
      (0 ≤ chooseVictimIndex rs ∧
        (chooseVictimIndex rs).toNat < rs.loaded.length) := by
  unfold chooseVictimIndex
  by_cases he : rs.loaded.isEmpty
  · rw [if_pos he]; exact Or.inl rfl
  · rw [if_neg he]
    have := chooseVictimAux_range rs.loaded 0 65535 4294967295 (-1) (Or.inl rfl)
    simpa using this

/-- noteFrameAccessList changes only timestamps and flags: the VPN and frame
projections are untouched. -/
theorem noteList_map_vpn (t v : Nat) (f : Int) :
    ∀ l : List LoadedPageInfo,
      (noteFrameAccessList t v f l).map (·.fullVPN) = l.map (·.fullVPN) := by
  intro l
  induction l with
  | nil => rfl
  | cons e rest ih =>
    simp only [noteFrameAccessList]
    by_cases hc : e.fullVPN = v ∧ e.frameNumber = f
    · rw [if_pos hc]; rfl
    · rw [if_neg hc]
      simp only [List.map_cons]
      rw [ih]

theorem noteList_map_frame (t v : Nat) (f : Int) :
    ∀ l : List LoadedPageInfo,
      (noteFrameAccessList t v f l).map (·.frameNumber) = l.map (·.frameNumber) := by
  intro l
  induction l with
  | nil => rfl
  | cons e rest ih =>
    simp only [noteFrameAccessList]
    by_cases hc : e.fullVPN = v ∧ e.frameNumber = f
    · rw [if_pos hc]; rfl
    · rw [if_neg hc]
      simp only [List.map_cons]
      rw [ih]

theorem noteList_mem (t v : Nat) (f : Int) :
    ∀ (l : List LoadedPageInfo) (e : LoadedPageInfo), e ∈ noteFrameAccessList t v f l →
      ∃ e0 ∈ l, e.fullVPN = e0.fullVPN ∧ e.frameNumber = e0.frameNumber := by
  intro l
  induction l with
  | nil => intro e he; exact absurd he (by simp [noteFrameAccessList])
  | cons x rest ih =>
    intro e he
    simp only [noteFrameAccessList] at he
    by_cases hc : x.fullVPN = v ∧ x.frameNumber = f
    · rw [if_pos hc] at he
      rcases List.mem_cons.mp he with he2 | he2
      · exact ⟨x, List.mem_cons_self x rest, by rw [he2]; exact ⟨rfl, rfl⟩⟩
      · exact ⟨e, List.mem_cons_of_mem x he2, rfl, rfl⟩
    · rw [if_neg hc] at he
      rcases List.mem_cons.mp he with he2 | he2
      · exact ⟨x, List.mem_cons_self x rest, by rw [he2]; exact ⟨rfl, rfl⟩⟩
      · rcases ih e he2 with ⟨e0, he0, hh⟩
        exact ⟨e0, List.mem_cons_of_mem x he0, hh⟩

/-- The replacement-state invariant: the budget field is stable, the record
count respects the budget, the next-free-frame counter equals the record
count, VPNs and frame numbers are pairwise distinct, and every frame number
is nonnegative and below the next free frame. -/
def RSInv (M : Nat) (rs : ReplacementState) : Prop :=
  rs.maxFrames = M ∧
  rs.loaded.length ≤ M ∧
  rs.nextFreeFrame = rs.loaded.length ∧
  (vpnsOf rs).Nodup ∧
  (framesOf rs).Nodup ∧
  (∀ e ∈ rs.loaded, 0 ≤ e.frameNumber ∧ e.frameNumber < Int.ofNat rs.nextFreeFrame)

theorem rsinv_tick (M : Nat) (rs : ReplacementState) (h : RSInv M rs) :
    RSInv M (tickReplacementClock rs) := by
  obtain ⟨h1, h2, h3, h4, h5, h6⟩ := h
  have hvpn : vpnsOf (performAgingUpdate rs) = vpnsOf rs := by
    unfold vpnsOf performAgingUpdate
    simp only [List.map_map]
    rfl
  have hfr : framesOf (performAgingUpdate rs) = framesOf rs := by
    unfold framesOf performAgingUpdate
    simp only [List.map_map]
    rfl
  unfold tickReplacementClock
  by_cases hc : rs.bitstringInterval ≤ (rs.accessesSinceAging + 1) % U32 <;>
    simp only [hc, if_true, if_false, ite_true, ite_false]
  · refine ⟨h1, ?_, ?_, ?_, ?_, ?_⟩
    · simpa [performAgingUpdate] using h2
    · simpa [performAgingUpdate] using h3
    · simpa [vpnsOf, performAgingUpdate, List.map_map] using h4
    · simpa [framesOf, performAgingUpdate, List.map_map] using h5
    · intro e he
      simp only [performAgingUpdate, List.mem_map] at he
      rcases he with ⟨e0, he0, heq⟩
      rw [← heq]
      exact h6 e0 he0
  · exact ⟨h1, h2, h3, h4, h5, h6⟩

theorem rsinv_note (M : Nat) (rs : ReplacementState) (v : Nat) (f : Int)
    (h : RSInv M rs) : RSInv M (noteFrameAccess rs v f) := by
  obtain ⟨h1, h2, h3, h4, h5, h6⟩ := h
  have hlen : (noteFrameAccessList rs.currentTime v f rs.loaded).length =
      rs.loaded.length := by
    have := noteList_map_vpn rs.currentTime v f rs.loaded
    have h7 := congrArg List.length this
    simpa using h7
  refine ⟨h1, by simpa [noteFrameAccess, hlen] using h2,
    by simpa [noteFrameAccess, hlen] using h3, ?_, ?_, ?_⟩
  · show ((noteFrameAccessList rs.currentTime v f rs.loaded).map (·.fullVPN)).Nodup
    rw [noteList_map_vpn]
    exact h4
  · show ((noteFrameAccessList rs.currentTime v f rs.loaded).map (·.frameNumber)).Nodup
    rw [noteList_map_frame]
    exact h5
  · intro e he
    simp only [noteFrameAccess] at he
    rcases noteList_mem rs.currentTime v f rs.loaded e he with ⟨e0, he0, hv2, hf2⟩
    rw [hf2]
    exact h6 e0 he0

theorem rsinv_ensure (M : Nat) (hM : M < U32) (pt : PageTable)
    (rs : ReplacementState) (va vpn : Nat) (r : EnsureResult)
    (hr : ensureResidentPage pt rs va vpn = some r) (h : RSInv M rs) :
    RSInv M r.rs := by
  obtain ⟨h1, h2, h3, h4, h5, h6⟩ := h
  unfold ensureResidentPage at hr
  by_cases hf : 0 ≤ findLoadedVPN rs vpn
  · rw [if_pos hf] at hr
    cases hr
    exact ⟨h1, h2, h3, h4, h5, h6⟩
  · rw [if_neg hf] at hr
    have hnotin : vpn ∉ vpnsOf rs := by
      intro hc
      rcases List.mem_map.mp hc with ⟨e0, he0, hv0⟩
      exact findLoadedVPNAux_neg vpn rs.loaded 0 (Int.not_le.mp hf) e0 he0 hv0
    by_cases hspace : rs.loaded.length < rs.maxFrames
    · rw [if_pos hspace] at hr
      cases hr
      have hlt : rs.nextFreeFrame + 1 < U32 := by omega
      refine ⟨h1, ?_, ?_, ?_, ?_, ?_⟩
      · simp only [List.length_append, List.length_singleton]
        omega
      · simp only [List.length_append, List.length_singleton]
        rw [Nat.mod_eq_of_lt hlt]
        omega
      · unfold vpnsOf
        simp only [List.map_append]
        exact nodup_append_singleton _ _ h4 hnotin
      · unfold framesOf
        simp only [List.map_append]
        apply nodup_append_singleton _ _ h5
        intro hc
        rcases List.mem_map.mp hc with ⟨e0, he0, hv0⟩
        have := (h6 e0 he0).2
        rw [hv0, h3] at this
        exact absurd this (by simp)
      · intro e he
        rcases List.mem_append.mp he with he2 | he2
        · have h9 := h6 e he2
          rw [Nat.mod_eq_of_lt hlt]
          refine ⟨h9.1, ?_⟩
          exact lt_trans h9.2 (Int.ofNat_lt.mpr (Nat.lt_succ_self _))
        · rw [List.mem_singleton] at he2
          rw [he2, Nat.mod_eq_of_lt hlt]
          constructor
          · exact Int.ofNat_nonneg _
          · simp
    · rw [if_neg hspace] at hr
      by_cases hv : chooseVictimIndex rs < 0
      · rw [if_pos hv] at hr
        exact absurd hr (by simp)
      · rw [if_neg hv] at hr
        cases hr
        have hrange := chooseVictimIndex_range rs
        have hilt : (chooseVictimIndex rs).toNat < rs.loaded.length := by
          rcases hrange with hr2 | hr2
          · rw [hr2] at hv
            exact absurd (by norm_num : (-1 : Int) < 0) hv
          · exact hr2.2
        have hvic := getD_mem_of_lt rs.loaded (chooseVictimIndex rs).toNat
          defaultLoaded hilt
        refine ⟨h1, ?_, ?_, ?_, ?_, ?_⟩
        · simpa using h2
        · simpa using h3
        · unfold vpnsOf
          simp only [map_set_comm]
          exact nodup_set_of_not_mem _ _ _ h4 hnotin
        · unfold framesOf
          simp only [map_set_comm]
          have hself : ((rs.loaded.map (·.frameNumber)).set (chooseVictimIndex rs).toNat
              ((rs.loaded.getD (chooseVictimIndex rs).toNat defaultLoaded).frameNumber)) =
              rs.loaded.map (·.frameNumber) := by
            have hgd : (List.map (fun e : LoadedPageInfo => e.frameNumber)
                rs.loaded).getD (chooseVictimIndex rs).toNat
                (defaultLoaded : LoadedPageInfo).frameNumber =
                (rs.loaded.getD (chooseVictimIndex rs).toNat defaultLoaded).frameNumber :=
              getD_map (fun e : LoadedPageInfo => e.frameNumber) defaultLoaded
                ((defaultLoaded : LoadedPageInfo).frameNumber) rs.loaded
                (chooseVictimIndex rs).toNat hilt
            rw [← hgd]
            exact list_set_getD_self _ _ _
          rw [hself]
          exact h5
        · intro e he
          rcases List.mem_or_eq_of_mem_set he with he2 | he2
          · exact h6 e he2
          · rw [he2]
            exact h6 (rs.loaded.getD (chooseVictimIndex rs).toNat defaultLoaded) hvic

theorem rsinv_process (M : Nat) (hM : M < U32) (s : SimState) (va : Nat)
    (s2 : SimState) (hp : processAddress s va = some s2) (h : RSInv M s.rs) :
    RSInv M s2.rs := by
  unfold processAddress at hp
  cases hm2 : searchMappedPfn s.pt va with
  | some m =>
    rw [hm2] at hp
    simp only [] at hp
    cases hp
    exact rsinv_note M _ _ _ (rsinv_tick M _ h)
  | none =>
    rw [hm2] at hp
    simp only [] at hp
    cases he : ensureResidentPage s.pt (tickReplacementClock s.rs) va
        (getFullVPN s.pt va) with
    | none => rw [he] at hp; exact absurd hp (by simp)
    | some r =>
      rw [he] at hp
      simp only [] at hp
      cases hp
      exact rsinv_note M _ _ _ (rsinv_ensure M hM s.pt _ va _ r he (rsinv_tick M _ h))

theorem rsinv_run (M : Nat) (hM : M < U32) :
    ∀ (trace : List Nat) (s : SimState), RSInv M s.rs →
      ∀ s2, runTrace s trace = some s2 → RSInv M s2.rs := by
  intro trace
  induction trace with
  | nil =>
    intro s h s2 hrun
    simp only [runTrace] at hrun
    cases hrun
    exact h
  | cons va rest ih =>
    intro s h s2 hrun
    simp only [runTrace] at hrun
    cases hp : processAddress s va with
    | none => rw [hp] at hrun; exact absurd hrun (by simp)
    | some sA =>
      rw [hp] at hrun
      exact ih sA (rsinv_process M hM s va sA hp h) s2 hrun

/-- C5: starting from the empty initial state, after processing any sequence
of addresses that completes, the number of resident records never exceeds
the configured max-frame budget, the resident frame numbers are pairwise
distinct, and the resident VPNs are pairwise distinct. -/
theorem claim_C5_resident_invariant (bits : List Nat) (M interval : Nat)
    (trace : List Nat) (hM : M < U32) (s : SimState)
    (hrun : runTrace (initSimState bits M interval) trace = some s) :
    s.rs.loaded.length ≤ M ∧ (framesOf s.rs).Nodup ∧ (vpnsOf s.rs).Nodup := by
  have hinit : RSInv M (initSimState bits M interval).rs := by
    refine ⟨rfl, by simp [initSimState, initReplacementState], rfl, ?_, ?_, ?_⟩
    · exact List.nodup_nil
    · exact List.nodup_nil
    · intro e he; exact absurd he (by simp [initSimState, initReplacementState])
  have := rsinv_run M hM trace (initSimState bits M interval) hinit s hrun
  exact ⟨this.2.1, this.2.2.2.2.1, this.2.2.2.1⟩

/-- The end state of the C5 witness run: budget 1, so the second address
evicts and the third reloads. -/
def c5Final : SimState :=
  (runTrace (initSimState [1, 2] 1 10) [0, 536870912, 0]).getD
    (initSimState [1, 2] 1 10)

/-- Witness for C5 on a concrete bounded run with an eviction. -/
theorem claim_C5_resident_invariant_witness :
    c5Final.rs.loaded.length ≤ 1 ∧ (framesOf c5Final.rs).Nodup ∧
      (vpnsOf c5Final.rs).Nodup :=
  claim_C5_resident_invariant [1, 2] 1 10 [0, 536870912, 0] (by decide) c5Final rfl

/-! ### Claim C10: consistency between the page table and replacement state -/

theorem mem_iff_getD {α : Type} (l : List α) (d : α) (e : α) :
    e ∈ l ↔ ∃ j, j < l.length ∧ l.getD j d = e := by
  induction l with
  | nil => simp
  | cons a rest ih =>
    constructor
    · intro h
      rcases List.mem_cons.mp h with h2 | h2
      · exact ⟨0, by simp, h2.symm⟩
      · rcases ih.mp h2 with ⟨j, hj, hgd⟩
        exact ⟨j+1, by simpa using hj, hgd⟩
    · rintro ⟨j, hj, hgd⟩
      cases j with
      | zero =>
        rw [← hgd]
        exact List.mem_cons_self a rest
      | succ k =>
        apply List.mem_cons_of_mem
        exact ih.mpr ⟨k, by simpa using hj, hgd⟩

theorem mem_set_self {α : Type} (l : List α) (i : Nat) (x : α) (h : i < l.length) :
    x ∈ l.set i x := by
  rw [mem_iff_getD (l.set i x) x x]
  exact ⟨i, by simpa using h, getD_set_self l i x x h⟩

/-- A precise description of membership in a list with one slot replaced:
the element is the new value or sits at a position other than i. -/
theorem mem_set_strong {α : Type} (l : List α) (i : Nat) (x : α) (e : α)
    (he : e ∈ l.set i x) :
    e = x ∨ ∃ j, j < l.length ∧ j ≠ i ∧ l.getD j x = e := by
  rcases (mem_iff_getD (l.set i x) x e).mp he with ⟨j, hj, hgd⟩
  rw [List.length_set] at hj
  by_cases hij : j = i
  · rw [hij] at hgd
    rw [getD_set_self l i x x (by omega)] at hgd
    exact Or.inl hgd.symm
  · rw [getD_set_ne l i j x x (fun hc => hij hc.symm)] at hgd
    exact Or.inr ⟨j, hj, hij, hgd⟩

theorem nodup_getD_ne {α : Type} (l : List α) (c : α) :
    l.Nodup → ∀ i j, i < l.length → j < l.length → i ≠ j →
      l.getD i c ≠ l.getD j c := by
  induction l with
  | nil => intro h i j hi; exact absurd hi (by simp)
  | cons a rest ih =>
    intro h i j hi hj hij
    rcases List.nodup_cons.mp h with ⟨ha, hr⟩
    cases i with
    | zero =>
      cases j with
      | zero => exact absurd rfl hij
      | succ k =>
        show a ≠ rest.getD k c
        intro hc
        exact ha (by rw [hc]; exact getD_mem_of_lt rest k c (by simpa using hj))
    | succ m =>
      cases j with
      | zero =>
        show rest.getD m c ≠ a
        intro hc
        exact ha (by rw [← hc]; exact getD_mem_of_lt rest m c (by simpa using hi))
      | succ k =>
        exact ih hr m k (by simpa using hi) (by simpa using hj) (by omega)

/-- A nonnegative findLoadedVPN result means some record holds this VPN. -/
theorem findLoadedVPNAux_pos (v : Nat) :
    ∀ (l : List LoadedPageInfo) (i : Nat),
      0 ≤ findLoadedVPNAux v l i → ∃ e ∈ l, e.fullVPN = v := by
  intro l
  induction l with
  | nil =>
    intro i h
    exact absurd h (by simp [findLoadedVPNAux])
  | cons x rest ih =>
    intro i h
    simp only [findLoadedVPNAux] at h
    by_cases hx : x.fullVPN = v
    · exact ⟨x, List.mem_cons_self x rest, hx⟩
    · rw [if_neg hx] at h
      rcases ih (i+1) h with ⟨e, he, hv⟩
      exact ⟨e, List.mem_cons_of_mem x he, hv⟩

/-- Search depends on the address only through its per-level indices. -/
theorem searchAux_congr (pt : PageTable) (va vb : Nat)
    (h : ∀ e, e < pt.levelCount → levelIndex pt va e = levelIndex pt vb e) :
    ∀ (fuel d : Nat) (curr : Level), fuel + d ≤ pt.levelCount →
      searchMappedPfnAux pt va d fuel curr = searchMappedPfnAux pt vb d fuel curr := by
  intro fuel
  induction fuel with
  | zero => intro d curr hfd; rfl
  | succ fuel ih =>
    intro d curr hfd
    have hdn : d < pt.levelCount := by omega
    simp only [searchMappedPfnAux]
    rw [h d hdn]
    by_cases hleaf : d = pt.levelCount - 1
    · rw [if_pos hleaf, if_pos hleaf]
    · rw [if_neg hleaf, if_neg hleaf]
      cases hn : curr.nextLevelArray with
      | none => rfl
      | some children =>
        simp only []
        cases hc : children.getD (levelIndex pt vb d) none with
        | none => rfl
        | some next => exact ih (d+1) next (by omega)

/-- The valid page-table mapping currently installed for a VPN, read through
the representative virtual address (VPN shifted left by the offset width). -/
def validMappingOf (pt : PageTable) (vpn : Nat) : Option Int :=
  (searchMappedPfn pt ((vpn <<< pt.offsetBits) % U32)).map (·.frameNumber)

/-- The replacement state holds a resident record binding this VPN to this
frame. -/
def hasRecord (rs : ReplacementState) (vpn : Nat) (f : Int) : Prop :=
  ∃ e ∈ rs.loaded, e.fullVPN = vpn ∧ e.frameNumber = f

theorem sum_ge_one {bits : List Nat} {pt : PageTable} (hm : PTMetaOK pt bits) :
    1 ≤ bits.sum :=
  sum_pos_of_nonempty bits hm.hne hm.hpos

theorem offsetBits_ne_32 {bits : List Nat} {pt : PageTable} (hm : PTMetaOK pt bits) :
    pt.offsetBits ≠ 32 := by
  have h1 := sum_ge_one hm
  rw [hm.hoffset]
  omega

theorem getFullVPN_eq {bits : List Nat} {pt : PageTable} (hm : PTMetaOK pt bits)
    (va : Nat) : getFullVPN pt va = va >>> pt.offsetBits := by
  unfold getFullVPN
  rw [if_neg (offsetBits_ne_32 hm)]

theorem fullVPN_lt {bits : List Nat} {pt : PageTable} (hm : PTMetaOK pt bits)
    (va : Nat) (hva : va < U32) : va >>> pt.offsetBits < 2 ^ bits.sum := by
  apply shiftRight_lt_pow
  have h1 := sum_ge_one hm
  have h2 := hm.hsum
  have h3 : bits.sum + pt.offsetBits = 32 := by rw [hm.hoffset]; omega
  rw [h3]
  have hu : U32 = 2 ^ 32 := by decide
  omega

/-- The representative address of a VPN: below 2^32, no wrap, and its full
VPN is the VPN itself. -/
theorem rep_lemmas {bits : List Nat} {pt : PageTable} (hm : PTMetaOK pt bits)
    (vpn : Nat) (hv : vpn < 2 ^ bits.sum) :
    (vpn <<< pt.offsetBits) % U32 = vpn <<< pt.offsetBits ∧
    vpn <<< pt.offsetBits < U32 ∧
    (vpn <<< pt.offsetBits) >>> pt.offsetBits = vpn := by
  have h2 := hm.hsum
  have h3 : bits.sum + pt.offsetBits = 32 := by
    rw [hm.hoffset]
    have := sum_ge_one hm
    omega
  have hu : U32 = 2 ^ 32 := by decide
  have hlt : vpn <<< pt.offsetBits < U32 := by
    rw [Nat.shiftLeft_eq, hu]
    calc vpn * 2 ^ pt.offsetBits < 2 ^ bits.sum * 2 ^ pt.offsetBits :=
          (Nat.mul_lt_mul_right (Nat.two_pow_pos _)).mpr hv
      _ = 2 ^ (bits.sum + pt.offsetBits) := by rw [Nat.pow_add]
      _ = 2 ^ 32 := by rw [h3]
  refine ⟨Nat.mod_eq_of_lt hlt, hlt, ?_⟩
  rw [Nat.shiftLeft_eq, Nat.shiftRight_eq_div_pow]
  exact Nat.mul_div_cancel vpn (Nat.two_pow_pos _)

/-- Search at any 32-bit address equals search at the representative address
of its full VPN. -/
theorem search_eq_rep {bits : List Nat} {pt : PageTable} (hm : PTMetaOK pt bits)
    (va : Nat) (hva : va < U32) :
    searchMappedPfn pt va =
      searchMappedPfn pt (((va >>> pt.offsetBits) <<< pt.offsetBits) % U32) := by
  have hv := fullVPN_lt hm va hva
  obtain ⟨hmod, hlt, hrt⟩ := rep_lemmas hm (va >>> pt.offsetBits) hv
  unfold searchMappedPfn
  apply searchAux_congr
  · intro e he
    apply (sameIdx_iff_sameVPN hm va ((((va >>> pt.offsetBits)) <<< pt.offsetBits) % U32)
      hva (by rw [hmod]; exact hlt)).mpr ?_ e he
    rw [hmod, hrt]
  · omega

/-- Aging preserves which VPN/frame bindings are resident. -/
theorem hasRecord_tick (rs : ReplacementState) (vpn : Nat) (f : Int) :
    hasRecord (tickReplacementClock rs) vpn f ↔ hasRecord rs vpn f := by
  unfold tickReplacementClock
  by_cases hc : rs.bitstringInterval ≤ (rs.accessesSinceAging + 1) % U32 <;>
    simp only [hc, if_true, if_false, ite_true, ite_false]
  · unfold hasRecord performAgingUpdate
    simp only []
    constructor
    · rintro ⟨e, he, hv2, hf2⟩
      rcases List.mem_map.mp he with ⟨e0, he0, heq⟩
      exact ⟨e0, he0, by rw [← heq] at hv2; exact hv2, by rw [← heq] at hf2; exact hf2⟩
    · rintro ⟨e, he, hv2, hf2⟩
      exact ⟨ageOneRecord e, List.mem_map_of_mem ageOneRecord he, hv2, hf2⟩
  · exact Iff.rfl

theorem loaded_tick_vpn_bound (rs : ReplacementState) (B : Nat)
    (h : ∀ e ∈ rs.loaded, e.fullVPN < B) :
    ∀ e ∈ (tickReplacementClock rs).loaded, e.fullVPN < B := by
  unfold tickReplacementClock
  by_cases hc : rs.bitstringInterval ≤ (rs.accessesSinceAging + 1) % U32 <;>
    simp only [hc, if_true, if_false, ite_true, ite_false]
  · intro e he
    simp only [performAgingUpdate] at he
    rcases List.mem_map.mp he with ⟨e0, he0, heq⟩
    rw [← heq]
    exact h e0 he0
  · exact h

theorem noteList_mem_rev (t v : Nat) (f : Int) :
    ∀ (l : List LoadedPageInfo) (e0 : LoadedPageInfo), e0 ∈ l →
      ∃ e ∈ noteFrameAccessList t v f l,
        e.fullVPN = e0.fullVPN ∧ e.frameNumber = e0.frameNumber := by
  intro l
  induction l with
  | nil => intro e0 he; exact absurd he (by simp)
  | cons x rest ih =>
    intro e0 he
    simp only [noteFrameAccessList]
    by_cases hc : x.fullVPN = v ∧ x.frameNumber = f
    · rw [if_pos hc]
      rcases List.mem_cons.mp he with he2 | he2
      · exact ⟨{ x with lastAccessTime := t, accessedThisInterval := true },
          List.mem_cons_self _ _, by rw [he2]; exact ⟨rfl, rfl⟩⟩
      · exact ⟨e0, List.mem_cons_of_mem _ he2, rfl, rfl⟩
    · rw [if_neg hc]
      rcases List.mem_cons.mp he with he2 | he2
      · exact ⟨x, List.mem_cons_self _ _, by rw [he2]; exact ⟨rfl, rfl⟩⟩
      · rcases ih e0 he2 with ⟨e, he3, hh⟩
        exact ⟨e, List.mem_cons_of_mem x he3, hh⟩

theorem hasRecord_note (rs : ReplacementState) (v2 : Nat) (f2 : Int)
    (vpn : Nat) (f : Int) :
    hasRecord (noteFrameAccess rs v2 f2) vpn f ↔ hasRecord rs vpn f := by
  unfold hasRecord noteFrameAccess
  simp only []
  constructor
  · rintro ⟨e, he, hv2, hf2⟩
    rcases noteList_mem rs.currentTime v2 f2 rs.loaded e he with ⟨e0, he0, ha, hb⟩
    exact ⟨e0, he0, by rw [← ha]; exact hv2, by rw [← hb]; exact hf2⟩
  · rintro ⟨e0, he0, hv2, hf2⟩
    rcases noteList_mem_rev rs.currentTime v2 f2 rs.loaded e0 he0 with ⟨e, he, ha, hb⟩
    exact ⟨e, he, by rw [ha]; exact hv2, by rw [hb]; exact hf2⟩

theorem loaded_note_vpn_bound (rs : ReplacementState) (v2 : Nat) (f2 : Int) (B : Nat)
    (h : ∀ e ∈ rs.loaded, e.fullVPN < B) :
    ∀ e ∈ (noteFrameAccess rs v2 f2).loaded, e.fullVPN < B := by
  intro e he
  simp only [noteFrameAccess] at he
  rcases noteList_mem rs.currentTime v2 f2 rs.loaded e he with ⟨e0, he0, ha, hb⟩
  rw [ha]
  exact h e0 he0

/-- noteFrameAccess on a VPN/frame pair matched by no resident record leaves
the state unchanged. -/
theorem noteFrameAccess_no_match (rs : ReplacementState) (vpn : Nat) (f : Int)
    (h : ∀ e ∈ rs.loaded, ¬(e.fullVPN = vpn ∧ e.frameNumber = f)) :
    noteFrameAccess rs vpn f = rs := by
  have hlist : ∀ l : List LoadedPageInfo,
      (∀ e ∈ l, ¬(e.fullVPN = vpn ∧ e.frameNumber = f)) →
      noteFrameAccessList rs.currentTime vpn f l = l := by
    intro l
    induction l with
    | nil => intro h2; rfl
    | cons x rest ih =>
      intro h2
      simp only [noteFrameAccessList]
      rw [if_neg (h2 x (List.mem_cons_self x rest))]
      rw [ih fun e he => h2 e (List.mem_cons_of_mem x he)]
  show { rs with loaded := noteFrameAccessList rs.currentTime vpn f rs.loaded } = rs
  rw [hlist rs.loaded h]

/-- getD does not depend on the default when the index is in range. -/
theorem getD_default_irrel {α : Type} (l : List α) (j : Nat) (d1 d2 : α)
    (h : j < l.length) : l.getD j d1 = l.getD j d2 := by
  induction l generalizing j with
  | nil => exact absurd h (by simp)
  | cons a t ih =>
    cases j with
    | zero => rfl
    | succ k => exact ih k (by simpa using h)

/-- Effect of one insert on the valid mapping of every VPN: the inserted
address's VPN gets the new frame (or loses its mapping when the frame is the
-1 sentinel), every other VPN is untouched. -/
theorem validMappingOf_insert {pt : PageTable} {bits : List Nat} (hm : PTMetaOK pt bits)
    (hwf : WFLevel bits pt.levelCount 0 pt.rootLevel)
    (va : Nat) (hva : va < U32) (f : Int) (vpn : Nat) (hv : vpn < 2 ^ bits.sum) :
    validMappingOf (insertMapForVpn2Pfn pt va f) vpn =
      (if va >>> pt.offsetBits = vpn then (if 0 ≤ f then some f else none)
      else validMappingOf pt vpn) := by
  obtain ⟨hmod, hlt, hrt⟩ := rep_lemmas hm vpn hv
  unfold validMappingOf
  rw [show (insertMapForVpn2Pfn pt va f).offsetBits = pt.offsetBits from rfl]
  rw [search_insert hm hwf va ((vpn <<< pt.offsetBits) % U32) f]
  have hcond : (∀ e, e < pt.levelCount → levelIndex pt va e =
      levelIndex pt ((vpn <<< pt.offsetBits) % U32) e) ↔
      (va >>> pt.offsetBits = vpn) := by
    rw [sameIdx_iff_sameVPN hm va ((vpn <<< pt.offsetBits) % U32) hva
      (by rw [hmod]; exact hlt)]
    rw [hmod, hrt]
  by_cases hc : va >>> pt.offsetBits = vpn
  · rw [if_pos (hcond.mpr hc), if_pos hc]
    by_cases hf : 0 ≤ f
    · rw [if_pos hf, if_pos hf]; rfl
    · rw [if_neg hf, if_neg hf]; rfl
  · rw [if_neg (fun h2 => hc (hcond.mp h2)), if_neg hc]

/-- Table-level preservation of structural well-formedness by insert. -/
theorem insert_wf_table {pt : PageTable} {bits : List Nat} (hm : PTMetaOK pt bits)
    (hwf : WFLevel bits pt.levelCount 0 pt.rootLevel) (va : Nat) (f : Int) :
    WFLevel bits (insertMapForVpn2Pfn pt va f).levelCount 0
      (insertMapForVpn2Pfn pt va f).rootLevel := by
  show WFLevel bits pt.levelCount 0
    (insertMapForVpn2PfnAux pt va f 0 pt.levelCount pt.rootLevel)
  exact insert_wf hm va f pt.levelCount 0 pt.rootLevel (by omega) hwf

/-- The consistency obligations ensureResidentPage maintains on the miss
path, together with the structural facts about the mutated table. -/
theorem consist_ensure {bits : List Nat} {M : Nat} (hM : M < U32)
    (pt : PageTable) (rs : ReplacementState) (va : Nat) (r : EnsureResult)
    (hmeta : PTMetaOK pt bits) (hwf : WFLevel bits pt.levelCount 0 pt.rootLevel)
    (hrsi : RSInv M rs)
    (hbound : ∀ e ∈ rs.loaded, e.fullVPN < 2 ^ bits.sum)
    (hcons : ∀ vpn f, vpn < 2 ^ bits.sum →
      (validMappingOf pt vpn = some f ↔ hasRecord rs vpn f))
    (hva : va < U32)
    (hmiss : searchMappedPfn pt va = none)
    (hr : ensureResidentPage pt rs va (getFullVPN pt va) = some r) :
    PTMetaOK r.pt bits ∧ WFLevel bits r.pt.levelCount 0 r.pt.rootLevel ∧
    RSInv M r.rs ∧ (∀ e ∈ r.rs.loaded, e.fullVPN < 2 ^ bits.sum) ∧
    (∀ vpn f, vpn < 2 ^ bits.sum →
      (validMappingOf r.pt vpn = some f ↔ hasRecord r.rs vpn f)) := by
  have hrsi2 := rsinv_ensure M hM pt rs va (getFullVPN pt va) r hr hrsi
  obtain ⟨h1, h2, h3, h4, h5, h6⟩ := hrsi
  have hv0eq : getFullVPN pt va = va >>> pt.offsetBits := getFullVPN_eq hmeta va
  have hv0lt : va >>> pt.offsetBits < 2 ^ bits.sum := fullVPN_lt hmeta va hva
  have hvmiss : validMappingOf pt (va >>> pt.offsetBits) = none := by
    unfold validMappingOf
    rw [← search_eq_rep hmeta va hva, hmiss]
    rfl
  have hnomem : ∀ e ∈ rs.loaded, e.fullVPN ≠ va >>> pt.offsetBits := by
    intro e he hc
    have hrec : hasRecord rs (va >>> pt.offsetBits) e.frameNumber := ⟨e, he, hc, rfl⟩
    have := (hcons (va >>> pt.offsetBits) e.frameNumber hv0lt).mpr hrec
    rw [hvmiss] at this
    exact absurd this (by simp)
  have hfneg : ¬ 0 ≤ findLoadedVPN rs (getFullVPN pt va) := by
    intro hc
    rcases findLoadedVPNAux_pos (getFullVPN pt va) rs.loaded 0 hc with ⟨e, he, hv⟩
    rw [hv0eq] at hv
    exact hnomem e he hv
  unfold ensureResidentPage at hr
  rw [if_neg hfneg] at hr
  by_cases hspace : rs.loaded.length < rs.maxFrames
  · -- allocate a fresh frame
    rw [if_pos hspace] at hr
    cases hr
    refine ⟨insert_meta_ok hmeta va (Int.ofNat rs.nextFreeFrame), ?_, hrsi2, ?_, ?_⟩
    · exact insert_wf_table hmeta hwf va (Int.ofNat rs.nextFreeFrame)
    · intro e he
      rcases List.mem_append.mp he with he2 | he2
      · exact hbound e he2
      · rw [List.mem_singleton] at he2
        rw [he2, hv0eq]
        exact hv0lt
    · intro vpn f hv
      rw [validMappingOf_insert hmeta hwf va hva (Int.ofNat rs.nextFreeFrame) vpn hv]
      by_cases hc : va >>> pt.offsetBits = vpn
      · rw [if_pos hc, if_pos (by exact Int.natCast_nonneg rs.nextFreeFrame :
          (0 : Int) ≤ Int.ofNat rs.nextFreeFrame)]
        constructor
        · intro hsf
          have hf2 : f = Int.ofNat rs.nextFreeFrame := by
            injection hsf with hsf
            exact hsf.symm
          refine ⟨_, List.mem_append.mpr (Or.inr (List.mem_singleton.mpr rfl)), ?_, ?_⟩
          · rw [hv0eq]; exact hc
          · rw [hf2]
        · rintro ⟨e, he, hev, hef⟩
          rcases List.mem_append.mp he with he2 | he2
          · rw [← hc] at hev
            exact absurd hev (hnomem e he2)
          · rw [List.mem_singleton] at he2
            rw [he2] at hef
            rw [← hef]
      · rw [if_neg hc, hcons vpn f hv]
        constructor
        · rintro ⟨e, he, hev, hef⟩
          exact ⟨e, List.mem_append.mpr (Or.inl he), hev, hef⟩
        · rintro ⟨e, he, hev, hef⟩
          rcases List.mem_append.mp he with he2 | he2
          · exact ⟨e, he2, hev, hef⟩
          · rw [List.mem_singleton] at he2
            rw [he2] at hev
            rw [hv0eq] at hev
            exact absurd hev hc
  · -- evict a victim
    rw [if_neg hspace] at hr
    by_cases hvneg : chooseVictimIndex rs < 0
    · rw [if_pos hvneg] at hr
      exact absurd hr (by simp)
    · rw [if_neg hvneg] at hr
      cases hr
      have hrange := chooseVictimIndex_range rs
      have hilt : (chooseVictimIndex rs).toNat < rs.loaded.length := by
        rcases hrange with hr2 | hr2
        · rw [hr2] at hvneg
          exact absurd (by norm_num : (-1 : Int) < 0) hvneg
        · exact hr2.2
      have hvic := getD_mem_of_lt rs.loaded (chooseVictimIndex rs).toNat
        defaultLoaded hilt
      have hvlt : (rs.loaded.getD (chooseVictimIndex rs).toNat
          defaultLoaded).fullVPN < 2 ^ bits.sum := hbound _ hvic
      obtain ⟨hvmod, hvlt2, hvrt⟩ := rep_lemmas hmeta _ hvlt
      have hmeta1 := insert_meta_ok hmeta
        (((rs.loaded.getD (chooseVictimIndex rs).toNat defaultLoaded).fullVPN <<<
          pt.offsetBits) % U32) (-1)
      have hwf1 := insert_wf_table hmeta hwf
        (((rs.loaded.getD (chooseVictimIndex rs).toNat defaultLoaded).fullVPN <<<
          pt.offsetBits) % U32) (-1)
      refine ⟨insert_meta_ok hmeta1 va _, ?_, hrsi2, ?_, ?_⟩
      · exact insert_wf_table hmeta1 hwf1 va _
      · intro e he
        rcases mem_set_strong rs.loaded (chooseVictimIndex rs).toNat _ e he with
          he2 | ⟨j, hjl, hji, hgd⟩
        · rw [he2, hv0eq]
          exact hv0lt
        · rw [← hgd]
          exact hbound _ (getD_mem_of_lt rs.loaded j _ hjl)
      · intro vpn f hv
        rw [validMappingOf_insert hmeta1 hwf1 va hva _ vpn hv]
        rw [show (insertMapForVpn2Pfn pt
          (((rs.loaded.getD (chooseVictimIndex rs).toNat defaultLoaded).fullVPN <<<
            pt.offsetBits) % U32) (-1)).offsetBits = pt.offsetBits from rfl]
        rw [validMappingOf_insert hmeta hwf _ (by rw [hvmod]; exact hvlt2) (-1) vpn hv]
        rw [hvmod, hvrt]
        by_cases hc : va >>> pt.offsetBits = vpn
        · rw [if_pos hc]
          rw [if_pos (h6 _ hvic).1]
          constructor
          · intro hsf
            have hf2 : f = (rs.loaded.getD (chooseVictimIndex rs).toNat
                defaultLoaded).frameNumber := by
              injection hsf with hsf
              exact hsf.symm
            refine ⟨_, mem_set_self rs.loaded (chooseVictimIndex rs).toNat _ hilt,
              ?_, ?_⟩
            · rw [hv0eq]; exact hc
            · rw [hf2]
          · rintro ⟨e, he, hev, hef⟩
            rcases mem_set_strong rs.loaded (chooseVictimIndex rs).toNat _ e he with
              he2 | ⟨j, hjl, hji, hgd⟩
            · rw [he2] at hef
              rw [← hef]
            · rw [← hc] at hev
              rw [← hgd] at hev
              exact absurd hev (hnomem _ (getD_mem_of_lt rs.loaded j _ hjl))
        · rw [if_neg hc]
          by_cases hcv : (rs.loaded.getD (chooseVictimIndex rs).toNat
              defaultLoaded).fullVPN = vpn
          · rw [if_pos hcv]
            constructor
            · intro hc2
              exact absurd hc2 (by simp)
            · rintro ⟨e, he, hev, hef⟩
              exfalso
              rcases mem_set_strong rs.loaded (chooseVictimIndex rs).toNat _ e he with
                he2 | ⟨j, hjl, hji, hgd⟩
              · rw [he2] at hev
                simp only [] at hev
                rw [hv0eq] at hev
                exact hc (hev)
              · have hnod := h4
                have hvj : (vpnsOf rs).getD j defaultLoaded.fullVPN =
                    (rs.loaded.getD j defaultLoaded).fullVPN :=
                  getD_map (fun e : LoadedPageInfo => e.fullVPN) defaultLoaded
                    defaultLoaded.fullVPN rs.loaded j hjl
                have hvi : (vpnsOf rs).getD (chooseVictimIndex rs).toNat
                    defaultLoaded.fullVPN =
                    (rs.loaded.getD (chooseVictimIndex rs).toNat
                      defaultLoaded).fullVPN :=
                  getD_map (fun e : LoadedPageInfo => e.fullVPN) defaultLoaded
                    defaultLoaded.fullVPN rs.loaded (chooseVictimIndex rs).toNat hilt
                have hlen : (vpnsOf rs).length = rs.loaded.length := by
                  unfold vpnsOf
                  exact List.length_map rs.loaded _
                have hgd2 : rs.loaded.getD j defaultLoaded = e := by
                  rw [getD_default_irrel rs.loaded j defaultLoaded _ hjl]
                  exact hgd
                have := nodup_getD_ne (vpnsOf rs) defaultLoaded.fullVPN hnod j
                  (chooseVictimIndex rs).toNat (by omega) (by omega) hji
                rw [hvj, hvi, hgd2] at this
                rw [hev, ← hcv] at this
                exact this rfl
          · rw [if_neg hcv, hcons vpn f hv]
            constructor
            · rintro ⟨e, he, hev, hef⟩
              rcases (mem_iff_getD rs.loaded defaultLoaded e).mp he with ⟨j, hjl, hgd⟩
              have hji : j ≠ (chooseVictimIndex rs).toNat := by
                intro hc2
                rw [hc2] at hgd
                rw [hgd] at hcv
                exact hcv hev
              refine ⟨e, ?_, hev, hef⟩
              apply (mem_iff_getD (rs.loaded.set (chooseVictimIndex rs).toNat _)
                defaultLoaded e).mpr
              refine ⟨j, by rw [List.length_set]; exact hjl, ?_⟩
              rw [getD_set_ne rs.loaded (chooseVictimIndex rs).toNat j _ _
                (fun hc2 => hji hc2.symm)]
              exact hgd
            · rintro ⟨e, he, hev, hef⟩
              rcases mem_set_strong rs.loaded (chooseVictimIndex rs).toNat _ e he with
                he2 | ⟨j, hjl, hji, hgd⟩
              · rw [he2] at hev
                simp only [] at hev
                rw [hv0eq] at hev
                exact absurd hev hc
              · exact ⟨e, by rw [← hgd]; exact getD_mem_of_lt rs.loaded j _ hjl,
                  hev, hef⟩

/-- The full cross-subsystem invariant: table metadata and structure are
well formed, the replacement-state invariants hold, resident VPNs fit in the
translated bits, and the valid page-table mappings coincide with the
resident records. -/
def ConsInv (bits : List Nat) (M : Nat) (s : SimState) : Prop :=
  PTMetaOK s.pt bits ∧
  WFLevel bits s.pt.levelCount 0 s.pt.rootLevel ∧
  RSInv M s.rs ∧
  (∀ e ∈ s.rs.loaded, e.fullVPN < 2 ^ bits.sum) ∧
  (∀ vpn f, vpn < 2 ^ bits.sum →
    (validMappingOf s.pt vpn = some f ↔ hasRecord s.rs vpn f))

theorem consinv_process {bits : List Nat} {M : Nat} (hM : M < U32)
    (s : SimState) (va : Nat) (hva : va < U32) (s2 : SimState)
    (hp : processAddress s va = some s2) (h : ConsInv bits M s) :
    ConsInv bits M s2 := by
  obtain ⟨hmeta, hwf, hrsi, hbound, hcons⟩ := h
  unfold processAddress at hp
  cases hm2 : searchMappedPfn s.pt va with
  | some m =>
    rw [hm2] at hp
    simp only [] at hp
    cases hp
    refine ⟨hmeta, hwf, rsinv_note M _ _ _ (rsinv_tick M _ hrsi), ?_, ?_⟩
    · exact loaded_note_vpn_bound _ _ _ _ (loaded_tick_vpn_bound s.rs _ hbound)
    · intro vpn f hv
      show validMappingOf s.pt vpn = some f ↔
        hasRecord (noteFrameAccess (tickReplacementClock s.rs)
          (getFullVPN s.pt va) m.frameNumber) vpn f
      rw [hasRecord_note, hasRecord_tick]
      exact hcons vpn f hv
  | none =>
    rw [hm2] at hp
    simp only [] at hp
    cases he : ensureResidentPage s.pt (tickReplacementClock s.rs) va
        (getFullVPN s.pt va) with
    | none => rw [he] at hp; exact absurd hp (by simp)
    | some r =>
      rw [he] at hp
      simp only [] at hp
      cases hp
      have hstep := consist_ensure hM s.pt (tickReplacementClock s.rs) va r hmeta hwf
        (rsinv_tick M _ hrsi) (loaded_tick_vpn_bound s.rs _ hbound)
        (fun vpn f hv => (hcons vpn f hv).trans (hasRecord_tick s.rs vpn f).symm)
        hva hm2 he
      obtain ⟨k1, k2, k3, k4, k5⟩ := hstep
      refine ⟨k1, k2, rsinv_note M _ _ _ k3, loaded_note_vpn_bound _ _ _ _ k4, ?_⟩
      intro vpn f hv
      show validMappingOf r.pt vpn = some f ↔
        hasRecord (noteFrameAccess r.rs (getFullVPN s.pt va) r.pfn) vpn f
      rw [hasRecord_note]
      exact k5 vpn f hv

theorem consinv_run {bits : List Nat} {M : Nat} (hM : M < U32) :
    ∀ (trace : List Nat), (∀ va ∈ trace, va < U32) →
      ∀ (s : SimState), ConsInv bits M s →
      ∀ s2, runTrace s trace = some s2 → ConsInv bits M s2 := by
  intro trace
  induction trace with
  | nil =>
    intro htr s h s2 hrun
    simp only [runTrace] at hrun
    cases hrun
    exact h
  | cons va rest ih =>
    intro htr s h s2 hrun
    simp only [runTrace] at hrun
    cases hp : processAddress s va with
    | none => rw [hp] at hrun; exact absurd hrun (by simp)
    | some sA =>
      rw [hp] at hrun
      have hva : va < U32 := htr va (List.mem_cons_self va rest)
      exact ih (fun a ha => htr a (List.mem_cons_of_mem va ha)) sA
        (consinv_process hM s va hva sA hp h) s2 hrun

theorem consinv_init (bits : List Nat) (M interval : Nat) (hne : bits ≠ [])
    (hpos : ∀ b ∈ bits, 1 ≤ b) (hsum : bits.sum ≤ 28) :
    ConsInv bits M (initSimState bits M interval) := by
  refine ⟨createPageTable_meta_ok bits hne hpos hsum, createPageTable_wf bits hsum,
    ⟨rfl, Nat.zero_le M, rfl, List.nodup_nil, List.nodup_nil,
      fun e he => absurd he (List.not_mem_nil e)⟩,
    fun e he => absurd he (List.not_mem_nil e), ?_⟩
  intro vpn f hv
  have hnone : searchMappedPfn (initSimState bits M interval).pt
      ((vpn <<< (initSimState bits M interval).pt.offsetBits) % U32) = none := by
    show searchMappedPfnAux _ _ 0 (createPageTable bits).levelCount
      (allocateLevel 0 ((1 <<< bits.headD 0) % U32)) = none
    exact searchAux_allocate _ _ _ _ _ _
  constructor
  · intro hc
    unfold validMappingOf at hc
    rw [hnone] at hc
    exact absurd hc (by simp)
  · rintro ⟨e, he, hv2, hf2⟩
    exact absurd he (List.not_mem_nil e)

/-- C10: after every fully processed address of a well-formed run, a VPN has
a valid page-table mapping to frame F exactly when the replacement state
holds a resident record with that VPN and frame F; in particular every hit
returned by the page-table lookup corresponds to an existing resident record
with the address's full VPN and the returned frame, and noteFrameAccess on a
VPN/frame pair matched by no resident record leaves the replacement state
unchanged. -/
theorem claim_C10_consistency (bits : List Nat) (M interval : Nat)
    (trace : List Nat) (hne : bits ≠ []) (hpos : ∀ b ∈ bits, 1 ≤ b)
    (hsum : bits.sum ≤ 28) (hM : M < U32) (htrace : ∀ va ∈ trace, va < U32)
    (s : SimState)
    (hrun : runTrace (initSimState bits M interval) trace = some s) :
    (∀ vpn f, vpn < 2 ^ bits.sum →
      (validMappingOf s.pt vpn = some f ↔
        ∃ e ∈ s.rs.loaded, e.fullVPN = vpn ∧ e.frameNumber = f)) ∧
    (∀ va m, va < U32 → searchMappedPfn s.pt va = some m →
      ∃ e ∈ s.rs.loaded, e.fullVPN = getFullVPN s.pt va ∧
        e.frameNumber = m.frameNumber) ∧
    (∀ (rs : ReplacementState) (vpn : Nat) (f : Int),
      (∀ e ∈ rs.loaded, ¬(e.fullVPN = vpn ∧ e.frameNumber = f)) →
      noteFrameAccess rs vpn f = rs) := by
  have hinv := consinv_run hM trace htrace (initSimState bits M interval)
    (consinv_init bits M interval hne hpos hsum) s hrun
  obtain ⟨hmeta, hwf, hrsi, hbound, hcons⟩ := hinv
  refine ⟨fun vpn f hv => hcons vpn f hv, ?_, ?_⟩
  · intro va m hva hsearch
    have hv0 : va >>> s.pt.offsetBits < 2 ^ bits.sum := fullVPN_lt hmeta va hva
    have hvm : validMappingOf s.pt (va >>> s.pt.offsetBits) = some m.frameNumber := by
      unfold validMappingOf
      rw [← search_eq_rep hmeta va hva, hsearch]
      rfl
    have hrec := (hcons (va >>> s.pt.offsetBits) m.frameNumber hv0).mp hvm
    rw [getFullVPN_eq hmeta va]
    exact hrec
  · intro rs vpn f hno
    exact noteFrameAccess_no_match rs vpn f hno

def c10Final : SimState :=
  (runTrace (initSimState [1, 2] 1 10) [0, 536870912]).getD (initSimState [1, 2] 1 10)

theorem claim_C10_consistency_witness :
    ([1, 2] ≠ ([] : List Nat)) ∧ (∀ b ∈ [1, 2], 1 ≤ b) ∧
    ([1, 2] : List Nat).sum ≤ 28 ∧ 1 < U32 ∧
    (∀ va ∈ [0, 536870912], va < U32) ∧
    runTrace (initSimState [1, 2] 1 10) [0, 536870912] = some c10Final ∧
    ((∀ vpn f, vpn < 2 ^ ([1, 2] : List Nat).sum →
      (validMappingOf c10Final.pt vpn = some f ↔
        ∃ e ∈ c10Final.rs.loaded, e.fullVPN = vpn ∧ e.frameNumber = f)) ∧
    (∀ va m, va < U32 → searchMappedPfn c10Final.pt va = some m →
      ∃ e ∈ c10Final.rs.loaded, e.fullVPN = getFullVPN c10Final.pt va ∧
        e.frameNumber = m.frameNumber) ∧
    (∀ (rs : ReplacementState) (vpn : Nat) (f : Int),
      (∀ e ∈ rs.loaded, ¬(e.fullVPN = vpn ∧ e.frameNumber = f)) →
      noteFrameAccess rs vpn f = rs)) := by
  refine ⟨by simp, by decide, by decide, by decide, by decide, rfl, ?_⟩
  exact claim_C10_consistency [1, 2] 1 10 [0, 536870912] (by simp) (by decide)
    (by decide) (by decide) (by decide) c10Final rfl

end MLPaging
